import Mathlib

/-!
Shallow embedding of the configuration registry in `src/thinc/_registry.py`
(class `registry`): promise detection, registry lookup, argument binding,
recursive resolution (`make_from_config`) and the two-pass fill-and-validate
engine (`fill_and_validate`), together with a model of the pydantic schemas
that `make_promise_schema` synthesizes from constructor signatures.
-/

set_option linter.unusedVariables false

namespace Thinc

/-- Python values flowing through the config machinery: scalars (str, int,
bool), dicts (insertion-ordered, string-keyed mappings, embedded as
association lists with the keys unique in any dict built by Python),
bare placeholder instances produced by `type_.__new__(type_)` (carrying the
class name), and objects returned by registered constructors (carrying a tag
and the captured call data). -/
inductive Node where
  | str : String → Node
  | int : Int → Node
  | bool : Bool → Node
  | map : List (String × Node) → Node
  | placeholder : String → Node
  | obj : String → List Node → Node

/-- Base types that can appear as pydantic field annotations: str, int, bool,
Any, or an arbitrary class (matched by name, as isinstance is in Python). -/
inductive Ty where
  | tStr
  | tInt
  | tBool
  | tAny
  | tCls : String → Ty
  deriving DecidableEq

/-- A pydantic model or field type: either a base annotation or a model with
an ordered list of fields (field name, field type, declared default if any).
`make_promise_schema` builds a `model`; a field whose type is itself a
`model` is what `field.type_` recursion descends into. -/
inductive Schema where
  | base : Ty → Schema
  | model : List (String × Schema × Option Node) → Schema

/-- Errors raised by the registry code or by pydantic validation. The Python
code raises `ValueError` with messages for the registry lookups, a bare
`ValueError` in `get_constructor`, pydantic `ValidationError`s for schema
violations, `KeyError` for a config key missing from `schema.__fields__`,
and `AttributeError` when a non-model schema is used where a model is
needed. -/
inductive Err where
  | unknownRegistry : String → Err
  | unknownFunc : String → String → Err
  | valueErr : Err
  | nameNotString : Err
  | missingField : String → Err
  | extraField : String → Err
  | typeMismatch : Err
  | attrErr : Err
  | keyErr : String → Err
  deriving DecidableEq

/-- One parameter of a registered constructor, as `inspect.signature` reports
it: name, declared type annotation, and declared default (if any). Parameter
names are Python identifiers, hence pairwise distinct and never starting
with the sigil character. -/
structure Param where
  name : String
  ty : Schema
  dflt : Option Node

/-- A registered constructor: its signature (parameters and declared return
type, used for schema synthesis) and its behavior when invoked with
positional and keyword arguments. -/
structure Constructor where
  params : List Param
  retTy : String
  impl : List Node → List (String × Node) → Node

/-- The registry store: named categories, each mapping function names to
constructors (the `catalogue` registries held as class attributes). -/
abbrev Registry := List (String × List (String × Constructor))

/-- Python dict access `d.get(k)`: dict keys are unique, so the first match
is the match. -/
def dlookup : List (String × α) → String → Option α
  | [], _ => none
  | (k2, v) :: rest, k => if k2 = k then some v else dlookup rest k

/-- Python `k in d`. -/
def containsKey (es : List (String × α)) (k : String) : Bool :=
  es.any (fun kv => kv.1 = k)

/-- Python `d.update(new)`: keys already in `d` keep their position and take
the new value; keys only in `new` are appended in their order. -/
def dictUpdate (d new : List (String × Node)) : List (String × Node) :=
  d.map (fun kv => (kv.1, (dlookup new kv.1).getD kv.2)) ++
    new.filter (fun kv => !containsKey d kv.1)

/-- Python `key.startswith(sigil)` for the sigil string, written on the
character list so that it evaluates inside the kernel. -/
def hasSigil (s : String) : Bool :=
  match s.data with
  | c :: _ => c = '@'
  | [] => false

/-- Python `key[1:]`: the category name after the sigil. -/
def dropSigil (s : String) : String :=
  String.mk (s.data.drop 1)

/-- Python `key.isdigit()` for ASCII digit strings: nonempty and all digits
(so a negative number or a dotted number is not a positional key). -/
def isDigitKey (s : String) : Bool :=
  !s.data.isEmpty && s.data.all Char.isDigit

/-- Python `int(key)` on a digit string. -/
def keyVal (s : String) : Nat :=
  s.data.foldl (fun acc c => acc * 10 + (c.toNat - '0'.toNat)) 0

/-- The comprehension `[k for k in obj.keys() if k.startswith(sigil)]` shared
by `is_promise`, `get_constructor` and `make_promise_schema`. -/
def sigilKeys (es : List (String × Node)) : List String :=
  (es.map Prod.fst).filter hasSigil

/-- Stable insertion of a keyed entry into a key-sorted list: the entry goes
after every entry with a key less than or equal to its own. -/
def insertPos (p : Nat × α) : List (Nat × α) → List (Nat × α)
  | [] => [p]
  | q :: rest => if p.1 ≤ q.1 then p :: q :: rest else q :: insertPos p rest

/-- Stable sort by numeric key, the behavior of Python `sorted` on the
`(int(key), value)` pairs built by `parse_args`: digit keys of one dict are
distinct, so comparison never reaches the second tuple component. -/
def sortPos : List (Nat × α) → List (Nat × α)
  | [] => []
  | p :: rest => insertPos p (sortPos rest)

/-- The `(int(key), value)` pairs `parse_args` accumulates in `args`: the
non-sigil entries whose key is a digit string. -/
def digitEntries (es : List (String × α)) : List (Nat × α) :=
  (es.filter (fun kv => !hasSigil kv.1 && isDigitKey kv.1)).map
    (fun kv => (keyVal kv.1, kv.2))

namespace registry

/-- `registry.get`: unknown-category lookups fail with
`ValueError: Unknown registry ...`; a category that lacks the requested name
fails with `ValueError: Could not find name in category`; otherwise the
registered constructor is returned. -/
def get (reg : Registry) (registry_name func_name : String) :
    Except Err Constructor :=
  match dlookup reg registry_name with
  | none => .error (.unknownRegistry registry_name)
  | some entries =>
      match dlookup entries func_name with
      | none => .error (.unknownFunc func_name registry_name)
      | some func => .ok func

/-- `registry.is_promise`: a mapping with exactly one sigil-prefixed key;
anything without `keys` is not a promise. -/
def is_promise : Node → Bool
  | .map es => (sigilKeys es).length = 1
  | _ => false

/-- `registry.get_constructor`: a bare `ValueError` unless there is exactly
one sigil key; otherwise look up the sigil key's value (the function name,
which Python can only look up when it is a string) in the category named
after the sigil. The `keyErr` arm is unreachable: the sole sigil key is a
key of the dict. -/
def get_constructor (reg : Registry) (es : List (String × Node)) :
    Except Err Constructor :=
  match sigilKeys es with
  | [key] =>
      match dlookup es key with
      | some (.str value) => get reg (dropSigil key) value
      | some _ => .error .nameNotString
      | none => .error (.keyErr key)
  | _ => .error .valueErr

/-- `registry.parse_args`: iterate the non-sigil entries; a key that
`isdigit` contributes `(int(key), value)` to the positional list, any other
key goes to the keyword dict; the positional list is then sorted by the
numeric key (stably, as Python `sorted` is) and the keys are dropped. -/
def parse_args (es : List (String × α)) : List α × List (String × α) :=
  let args := digitEntries es
  let kwargs := es.filter (fun kv => !hasSigil kv.1 && !isDigitKey kv.1)
  ((sortPos args).map Prod.snd, kwargs)

/-- `registry.make_promise_schema`: look up the constructor, then build a
pydantic model whose first field is the sigil key, required and typed `str`,
followed by one field per signature parameter, typed by its annotation and
defaulted by its declared default (required when there is none). Parameter
names are distinct identifiers, so the dict build is a plain append. The
fallback arm is unreachable: `get_constructor` succeeded on the same dict.
The synthesized model carries `_PromiseSchemaConfig`, i.e. extra keys are
forbidden. -/
def make_promise_schema (reg : Registry) (es : List (String × Node)) :
    Except Err Schema := do
  let func ← get_constructor reg es
  match sigilKeys es with
  | [key] =>
      pure (.model ((key, Schema.base .tStr, none) ::
        func.params.map (fun p => (p.name, p.ty, p.dflt))))
  | _ => .error .valueErr

/-- `registry.get_return_type`: the constructor's declared return
annotation. -/
def get_return_type (reg : Registry) (es : List (String × Node)) :
    Except Err String :=
  (get_constructor reg es).map (fun func => func.retTy)

mutual

/-- `registry.make_from_config`: recurse over sub-dictionaries, filling in
values; if the filled node is a promise, look up its constructor, bind the
(already resolved) entries into positional and keyword arguments and invoke
it, the returned object replacing the node; otherwise return the filled
mapping. Non-dict values are returned unchanged (the Python loop copies
them; the function itself is only ever applied to dicts). -/
def make_from_config (reg : Registry) : Node → Except Err Node
  | .map es => do
      let filled ← mfcEntries reg es
      if (sigilKeys filled).length = 1 then do
        let getter ← get_constructor reg filled
        let args := parse_args filled
        pure (getter.impl args.1 args.2)
      else
        pure (.map filled)
  | v => pure v

/-- The loop of `make_from_config`: each dict value is resolved recursively,
every other value is kept. -/
def mfcEntries (reg : Registry) : List (String × Node) →
    Except Err (List (String × Node))
  | [] => pure []
  | (k, v) :: rest => do
      let r ← make_from_config reg v
      let rs ← mfcEntries reg rest
      pure ((k, r) :: rs)

end

/-- Modelled from the spec: pydantic's scalar validation and coercion for a
base field annotation (a supplied value failing the declared type check is a
`TypeMismatchError`; `Any` accepts anything; an arbitrary class annotation
is an isinstance check on a placeholder or constructed object). The pydantic
library itself is an external dependency, not part of the repository
sources. -/
def coerceBase : Ty → Node → Except Err Node
  | .tAny, v => pure v
  | .tStr, .str s => pure (.str s)
  | .tStr, .int n => pure (.str (toString n))
  | .tStr, .bool b => pure (.str (if b then "True" else "False"))
  | .tInt, .int n => pure (.int n)
  | .tInt, .bool b => pure (.int (if b then 1 else 0))
  | .tInt, .str s =>
      match s.toInt? with
      | some n => pure (.int n)
      | none => .error .typeMismatch
  | .tBool, .bool b => pure (.bool b)
  | .tBool, .int n =>
      if n = 0 then pure (.bool false)
      else if n = 1 then pure (.bool true)
      else .error .typeMismatch
  | .tBool, .str s =>
      if s = "true" ∨ s = "True" ∨ s = "1" then pure (.bool true)
      else if s = "false" ∨ s = "False" ∨ s = "0" then pure (.bool false)
      else .error .typeMismatch
  | .tCls c, .placeholder c2 =>
      if c = c2 then pure (.placeholder c2) else .error .typeMismatch
  | .tCls c, .obj c2 data =>
      if c = c2 then pure (.obj c2 data) else .error .typeMismatch
  | _, _ => .error .typeMismatch

mutual

/-- Modelled from the spec: the per-field step of pydantic validation. Each
declared field takes its validated (coerced) supplied value, else its
declared default unvalidated (pydantic does not validate defaults), else
fails as required-missing; the output lists the fields in declaration
order, as `.dict()` renders them. -/
def parseFields : List (String × Schema × Option Node) →
    List (String × Node) → Except Err (List (String × Node))
  | [], _ => pure []
  | (name, fty, dflt) :: rest, data =>
      (match dlookup data name with
       | some v => validateValue fty v
       | none =>
           match dflt with
           | some d => pure d
           | none => .error (.missingField name)) >>= fun v =>
      parseFields rest data >>= fun vs =>
      pure ((name, v) :: vs)

/-- Modelled from the spec: validation of one supplied value against its
field type: a base annotation coerces scalars, a model annotation validates
a dict recursively in extra-forbidden mode (this inlines `parse_obj`, the
wrapper defined below, on the sub-model), and anything that is not a dict
fails a model annotation. -/
def validateValue : Schema → Node → Except Err Node
  | .base t, v => coerceBase t v
  | .model fields, .map es =>
      (match es.find? (fun kv => !(fields.any (fun f => f.1 = kv.1))) with
       | some kv => .error (.extraField kv.1)
       | none => parseFields fields es) >>= fun parsed =>
      pure (.map parsed)
  | .model _, _ => .error .typeMismatch

end

/-- Modelled from the spec: pydantic `Model.parse_obj(data).dict()` for a
synthesized model in extra-forbidden mode: a data key not declared by any
field is a validation error, otherwise the fields are parsed in declaration
order. -/
def parse_obj (fields : List (String × Schema × Option Node))
    (data : List (String × Node)) : Except Err (List (String × Node)) :=
  match data.find? (fun kv => !(fields.any (fun f => f.1 = kv.1))) with
  | some kv => .error (.extraField kv.1)
  | none => parseFields fields data

/-- The tail of `registry.fill_and_validate`, after its loop: run the schema
over the accumulated validation dict
(`validation.update(schema.parse_obj(validation).dict())` — an
AttributeError when the schema is not a model) and copy every key the
update added that `filled` lacks into `filled`. -/
def favPost (schema : Schema)
    (fv : List (String × Node) × List (String × Node)) :
    Except Err (List (String × Node) × List (String × Node)) :=
  match schema with
  | .base _ => .error .attrErr
  | .model fields =>
      parse_obj fields fv.2 >>= fun parsed =>
      pure (fv.1 ++
        (dictUpdate fv.2 parsed).filter (fun kv => !containsKey fv.1 kv.1),
        dictUpdate fv.2 parsed)

mutual

/-- The loop of `registry.fill_and_validate`: build the `filled` entry and
the `validation` entry for each key in order. -/
def favEntries (reg : Registry) (config : List (String × Node))
    (schema : Schema) :
    Except Err (List (String × Node) × List (String × Node)) :=
  match config with
  | [] => pure ([], [])
  | (key, value) :: rest =>
      favOne reg value schema key >>= fun fx =>
      favEntries reg rest schema >>= fun frest =>
      pure ((key, fx.1) :: frest.1, (key, fx.2) :: frest.2)

/-- The body of the `fill_and_validate` loop for one entry `(key, value)`:
a promise value gets its own synthesized schema, is filled recursively
(`favEntries` followed by `favPost` inlines `fill_and_validate`, the
wrapper defined below), and contributes a bare placeholder of its declared
return type to the validation side; a plain dict value recurses with the
sub-schema found in `schema.__fields__[key]` (a KeyError when the key is
not a field, an AttributeError when the schema is not a model); any other
value is stored identically on both sides. -/
def favOne (reg : Registry) (value : Node) (schema : Schema) (key : String) :
    Except Err (Node × Node) :=
  match value with
  | .map es =>
      if (sigilKeys es).length = 1 then
        make_promise_schema reg es >>= fun promise_schema =>
        (favEntries reg es promise_schema >>= favPost promise_schema) >>=
          fun f =>
        get_return_type reg es >>= fun type_ =>
        pure (Node.map f.1, Node.placeholder type_)
      else
        match schema with
        | .model fields =>
            match dlookup fields key with
            | some fd =>
                (favEntries reg es fd.1 >>= favPost fd.1) >>= fun fv =>
                pure (Node.map fv.1, Node.map fv.2)
            | none => Except.error (.keyErr key)
        | .base _ => Except.error .attrErr
  | v => pure (v, v)

end

/-- `registry.fill_and_validate`: build the `filled` dict (promises
preserved) and the `validation` dict (promises replaced by placeholder
instances of their return type) from the input via the loop above, then
update both with the schema's parsed defaults via `favPost`. -/
def fill_and_validate (reg : Registry) (config : List (String × Node))
    (schema : Schema) :
    Except Err (List (String × Node) × List (String × Node)) :=
  favEntries reg config schema >>= favPost schema

end registry

open registry

/-- A node that is not a dict (scalar, placeholder or constructed object):
the values the `fill_and_validate` loop stores identically in both trees. -/
def isMapNode : Node → Bool
  | .map _ => true
  | _ => false

/-- Whether an `Except` computation succeeded. -/
def isOkE : Except Err α → Bool
  | .ok _ => true
  | .error _ => false

/-- Registry lookup and promise-shape failures (unknown category, unknown
entry, malformed promise, non-string registry name), as opposed to the
schema-validation failures (missing required field, unknown field, type
mismatch, missing model attributes). -/
def isLookupErr : Err → Bool
  | .unknownRegistry _ => true
  | .unknownFunc _ _ => true
  | .valueErr => true
  | .nameNotString => true
  | _ => false

mutual

/-- A config tree containing no promise node: no mapping anywhere in it has
exactly one sigil-prefixed key. -/
def promiseFree : Node → Bool
  | .map es => !((sigilKeys es).length = 1 : Bool) && promiseFreeEntries es
  | _ => true

/-- `promiseFree` over the values of a mapping. -/
def promiseFreeEntries : List (String × Node) → Bool
  | [] => true
  | (_, v) :: rest => promiseFree v && promiseFreeEntries rest

end

/-- Pairwise distinct keys, as the keys of a Python dict always are. -/
def distinctKeys : List String → Bool
  | [] => true
  | k :: rest => !(rest.any (fun a => a = k)) && distinctKeys rest

/-- The well-formedness condition on one declared default: it is absent, or
it is a non-dict value on a non-sigil-named field that its own field
annotation accepts. -/
def wfDefault (name : String) (s : Schema) : Option Node → Bool
  | none => true
  | some dv => !hasSigil name && !isMapNode dv && isOkE (validateValue s dv)

mutual

/-- A well-formed schema, as every schema pydantic actually builds from a
Python signature is: field names are distinct; a declared default is not a
dict, does not sit on a sigil-named field, and is accepted by its own
field's annotation; nested models are well-formed in turn. -/
def wfSchema : Schema → Bool
  | .base _ => true
  | .model fields => distinctKeys (fields.map Prod.fst) && wfFields fields

/-- `wfSchema` over a field list. -/
def wfFields : List (String × Schema × Option Node) → Bool
  | [] => true
  | (name, s, d) :: rest =>
      wfSchema s && wfDefault name s d && wfFields rest

end

/-- A well-formed constructor parameter: its name is a Python identifier
(never sigil-prefixed), its annotation is well-formed, and a declared
default is a non-dict value its own annotation accepts. -/
def wfParam (p : Param) : Bool :=
  !hasSigil p.name && wfSchema p.ty && wfDefault p.name p.ty p.dflt

/-- A well-formed constructor: distinct parameter names, each well-formed. -/
def wfCtor (c : Constructor) : Bool :=
  distinctKeys (c.params.map Param.name) && c.params.all wfParam

/-- A registry all of whose constructors are well-formed. -/
def wfReg (reg : Registry) : Bool :=
  reg.all (fun cat => cat.2.all (fun e => wfCtor e.2))

/-- Relation between the validation-tree values two consecutive
`fill_and_validate` passes store for one key: the second pass stores the
same value, except for a plain-mapping entry, where it stores the mapping
revalidated by the second recursive pass (which the key's own sub-model
accepts). -/
def VCone (schema : Schema) (key : String) (a b : Node) : Prop :=
  b = a ∨
  ∃ fields subfields dopt v2post p2,
    schema = Schema.model fields ∧
    dlookup fields key = some (Schema.model subfields, dopt) ∧
    b = Node.map v2post ∧ parse_obj subfields v2post = Except.ok p2

/-! Concrete constructors and registries used by the witnesses and
counterexamples. -/

/-- A demo constructor with two required int parameters (an embedding
layer). -/
def embedCtor : Constructor where
  params := [⟨"nO", .base .tInt, none⟩, ⟨"nV", .base .tInt, none⟩]
  retTy := "Model"
  impl := fun args kwargs => .obj "Embed" (args ++ kwargs.map Prod.snd)

/-- A demo constructor with one defaulted int parameter. -/
def softmaxCtor : Constructor where
  params := [⟨"nO", .base .tInt, some (.int 2)⟩]
  retTy := "Model"
  impl := fun args kwargs => .obj "Softmax" (args ++ kwargs.map Prod.snd)

/-- A demo combinator taking two models positionally. -/
def chainCtor : Constructor where
  params := [⟨"a", .base (.tCls "Model"), none⟩, ⟨"b", .base (.tCls "Model"), none⟩]
  retTy := "Model"
  impl := fun args kwargs => .obj "Chain" (args ++ kwargs.map Prod.snd)

/-- A demo constructor with a single required parameter and no default. -/
def reqCtor : Constructor where
  params := [⟨"nO", .base .tInt, none⟩]
  retTy := "Model"
  impl := fun args kwargs => .obj "Req" (args ++ kwargs.map Prod.snd)

/-- The demo registry holding the layer constructors above. -/
def regDemo : Registry :=
  [("layers", [("Embed.v0", embedCtor), ("Softmax.v0", softmaxCtor),
               ("Chain.v0", chainCtor), ("F.v0", reqCtor)])]

/-- The nested-promise scenario configuration from the spec. -/
def chainConfig : Node :=
  .map [("@layers", .str "Chain.v0"),
        ("0", .map [("@layers", .str "Embed.v0"), ("nO", .int 4), ("nV", .int 10)]),
        ("1", .map [("@layers", .str "Softmax.v0"), ("nO", .int 2)])]

/-- A schema with a mapping-valued default: pydantic accepts it (defaults
are not validated), which is what breaks naive idempotence of
`fill_and_validate`. -/
def mapDefaultSchema : Schema :=
  .model [("x", .base .tInt, some (.map [("a", .int 1)]))]

/-! Lemmas about the dict helpers. -/

@[simp] theorem dlookup_nil (k : String) :
    dlookup ([] : List (String × α)) k = none := rfl

@[simp] theorem dlookup_cons (k2 k : String) (v : α) (rest : List (String × α)) :
    dlookup ((k2, v) :: rest) k = if k2 = k then some v else dlookup rest k := rfl

@[simp] theorem containsKey_nil (k : String) :
    containsKey ([] : List (String × α)) k = false := rfl

@[simp] theorem containsKey_cons (k2 k : String) (v : α) (rest : List (String × α)) :
    containsKey ((k2, v) :: rest) k = (k2 = k || containsKey rest k) := by
  simp [containsKey]

theorem containsKey_eq_isSome (es : List (String × α)) (k : String) :
    containsKey es k = (dlookup es k).isSome := by
  induction es with
  | nil => rfl
  | cons e rest ih =>
      obtain ⟨k2, v⟩ := e
      by_cases h : k2 = k <;> simp [h, ih]

theorem dlookup_append (a b : List (String × α)) (k : String) :
    dlookup (a ++ b) k = (dlookup a k).or (dlookup b k) := by
  induction a with
  | nil => simp
  | cons e rest ih =>
      obtain ⟨k2, v⟩ := e
      by_cases h : k2 = k <;> simp [h, ih]

theorem dlookup_mem {es : List (String × α)} {k : String} {v : α}
    (h : dlookup es k = some v) : (k, v) ∈ es := by
  induction es with
  | nil => simp at h
  | cons e rest ih =>
      obtain ⟨k2, v2⟩ := e
      by_cases hk : k2 = k
      · subst hk
        simp at h
        simp [h]
      · simp [hk] at h
        simp [ih h]

theorem dlookup_eq_none_of_not_containsKey {es : List (String × α)} {k : String}
    (h : containsKey es k = false) : dlookup es k = none := by
  rw [containsKey_eq_isSome] at h
  cases hx : dlookup es k <;> simp [hx] at h ⊢

/-! Lemmas about the stable positional sort. -/

theorem insertPos_perm (p : Nat × α) (l : List (Nat × α)) :
    (insertPos p l).Perm (p :: l) := by
  induction l with
  | nil => exact List.Perm.refl _
  | cons q rest ih =>
      by_cases h : p.1 ≤ q.1
      · simp [insertPos, h]
      · simp only [insertPos, h, if_neg, if_false]
        exact ((ih.cons q).trans (List.Perm.swap p q rest))

theorem sortPos_perm (l : List (Nat × α)) : (sortPos l).Perm l := by
  induction l with
  | nil => exact List.Perm.refl _
  | cons p rest ih =>
      exact (insertPos_perm p (sortPos rest)).trans (ih.cons p)

theorem insertPos_sorted (p : Nat × α) (l : List (Nat × α))
    (h : l.Pairwise (fun a b => a.1 ≤ b.1)) :
    (insertPos p l).Pairwise (fun a b => a.1 ≤ b.1) := by
  induction l with
  | nil => simp [insertPos]
  | cons q rest ih =>
      rcases List.pairwise_cons.mp h with ⟨hq, hrest⟩
      by_cases hle : p.1 ≤ q.1
      · simp only [insertPos, hle, if_pos]
        refine List.pairwise_cons.mpr ⟨?_, h⟩
        intro b hb
        rcases List.mem_cons.mp hb with rfl | hb
        · exact hle
        · exact le_trans hle (hq b hb)
      · simp only [insertPos, hle, if_neg, if_false]
        refine List.pairwise_cons.mpr ⟨?_, ih hrest⟩
        intro b hb
        have hb2 := (insertPos_perm p rest).mem_iff.mp hb
        rcases List.mem_cons.mp hb2 with rfl | hb2
        · omega
        · exact hq b hb2

theorem sortPos_sorted (l : List (Nat × α)) :
    (sortPos l).Pairwise (fun a b => a.1 ≤ b.1) := by
  induction l with
  | nil => simp [sortPos]
  | cons p rest ih => exact insertPos_sorted p (sortPos rest) ih

/-! Characterization of the resolution loop. -/

theorem mfcEntries_iff (reg : Registry) (es filled : List (String × Node)) :
    mfcEntries reg es = .ok filled ↔
      List.Forall₂
        (fun ev fv => ev.1 = fv.1 ∧ make_from_config reg ev.2 = .ok fv.2)
        es filled := by
  induction es generalizing filled with
  | nil =>
      constructor
      · intro h
        simp [mfcEntries, pure, Except.pure] at h
        subst h
        exact List.Forall₂.nil
      · intro h
        cases h
        rfl
  | cons e rest ih =>
      obtain ⟨k, v⟩ := e
      constructor
      · intro h
        simp only [mfcEntries, Bind.bind, Except.bind] at h
        cases hv : make_from_config reg v with
        | error e => rw [hv] at h; cases h
        | ok r =>
            rw [hv] at h
            cases hrest : mfcEntries reg rest with
            | error e => rw [hrest] at h; cases h
            | ok rs =>
                rw [hrest] at h
                simp [pure, Except.pure] at h
                subst h
                exact List.Forall₂.cons ⟨rfl, hv⟩ ((ih rs).mp hrest)
      · intro h
        cases h with
        | cons hpair hrest =>
            rename_i fv frest
            simp only [mfcEntries, Bind.bind, Except.bind, hpair.2,
              (ih frest).mpr hrest, pure, Except.pure]
            obtain ⟨k2, r⟩ := fv
            simp only at hpair
            rw [hpair.1]

theorem forall₂_keys_eq {R : String × Node → String × Node → Prop}
    (hR : ∀ a b, R a b → a.1 = b.1) {es filled : List (String × Node)}
    (h : List.Forall₂ R es filled) : filled.map Prod.fst = es.map Prod.fst := by
  induction h with
  | nil => rfl
  | cons hpair hrest ih => simp [ih, hR _ _ hpair]

theorem mfcEntries_keys {reg : Registry} {es filled : List (String × Node)}
    (h : mfcEntries reg es = .ok filled) :
    filled.map Prod.fst = es.map Prod.fst :=
  forall₂_keys_eq (fun a b hab => hab.1) ((mfcEntries_iff reg es filled).mp h)

theorem sigilKeys_congr {es filled : List (String × Node)}
    (h : filled.map Prod.fst = es.map Prod.fst) :
    sigilKeys filled = sigilKeys es := by
  simp [sigilKeys, h]

/-! Identity of resolution on promise-free trees. -/

mutual

theorem mfc_promise_free (reg : Registry) (n : Node)
    (h : promiseFree n = true) : make_from_config reg n = .ok n :=
  match n with
  | .map es => by
      rw [promiseFree] at h
      rcases Bool.and_eq_true_iff.mp h with ⟨hsig, hrest⟩
      have hm : mfcEntries reg es = .ok es := mfcEntries_promise_free reg es hrest
      simp only [make_from_config, Bind.bind, Except.bind, hm]
      rw [if_neg]
      · rfl
      · simpa using hsig
  | .str s => rfl
  | .int i => rfl
  | .bool b => rfl
  | .placeholder c => rfl
  | .obj c d => rfl

theorem mfcEntries_promise_free (reg : Registry) (es : List (String × Node))
    (h : promiseFreeEntries es = true) : mfcEntries reg es = .ok es :=
  match es with
  | [] => rfl
  | (k, v) :: rest => by
      rw [promiseFreeEntries] at h
      rcases Bool.and_eq_true_iff.mp h with ⟨h1, h2⟩
      simp only [mfcEntries, mfc_promise_free reg v h1,
        mfcEntries_promise_free reg rest h2, Bind.bind, Except.bind, pure,
        Except.pure]

end

/-! The frozen claims. -/

/-- C1: the claim states that resolving a mapping with two or more
sigil-prefixed keys fails with a malformed-promise error; the code instead
treats such a mapping as a plain (non-promise) mapping and resolves it
silently, as this concrete run shows. -/
theorem C1_counterexample :
    registry.make_from_config regDemo
      (.map [("@layers", .str "A.v0"), ("@optimizers", .str "B.v0")]) =
      .ok (.map [("@layers", .str "A.v0"), ("@optimizers", .str "B.v0")]) := rfl

/-- C1 (amended): a mapping node with two or more sigil-prefixed keys is not
classified as a promise; `make_from_config` resolves it as a plain mapping
(values recursively resolved, same keys) and raises no error of its own. -/
theorem C1_multi_sigil_resolves_as_plain_mapping (reg : Registry)
    (es filled : List (String × Node))
    (h2 : 2 ≤ (sigilKeys es).length)
    (h : mfcEntries reg es = .ok filled) :
    make_from_config reg (.map es) = .ok (.map filled) := by
  have hk := sigilKeys_congr (mfcEntries_keys h)
  simp only [make_from_config, Bind.bind, Except.bind, h, hk]
  rw [if_neg]
  · rfl
  · omega

/-- C1 witness: the amended theorem applied to a concrete three-entry
mapping carrying two sigil keys. -/
theorem C1_witness :
    registry.make_from_config regDemo
      (.map [("@a", .str "x"), ("@b", .str "y"), ("k", .int 3)]) =
      .ok (.map [("@a", .str "x"), ("@b", .str "y"), ("k", .int 3)]) :=
  C1_multi_sigil_resolves_as_plain_mapping regDemo _ _ (by decide) rfl

/-- C3: on a config tree containing no promise nodes, `make_from_config` is
the identity: every scalar is returned unchanged and every plain mapping
keeps its keys, with the values resolved recursively (hence unchanged). -/
theorem C3_resolve_identity_on_promise_free (reg : Registry) (n : Node)
    (h : promiseFree n = true) : make_from_config reg n = .ok n :=
  mfc_promise_free reg n h

/-- C3 witness: identity on a concrete promise-free nested mapping (the
inner mapping carries two sigil keys and zero sigil keys at the two levels,
so nothing is a promise). -/
theorem C3_witness :
    registry.make_from_config regDemo
      (.map [("a", .int 1),
             ("b", .map [("c", .str "x"), ("@k", .str "y"), ("@j", .int 2)])]) =
      .ok (.map [("a", .int 1),
             ("b", .map [("c", .str "x"), ("@k", .str "y"), ("@j", .int 2)])]) :=
  C3_resolve_identity_on_promise_free regDemo _ (by decide)

/-- C5: resolution of a promise node is depth-first: when every child value
resolves (`Forall₂` pairs each entry with its fully resolved value, keys
unchanged) and the constructor lookup on the resolved entries succeeds,
`make_from_config` returns exactly the constructor applied to the
positional and keyword binding of the resolved children, replacing the
node. -/
theorem C5_depth_first_promise_resolution (reg : Registry)
    (es filled : List (String × Node)) (getter : Constructor)
    (hp : is_promise (.map es) = true)
    (hchild : List.Forall₂
      (fun ev fv => ev.1 = fv.1 ∧ make_from_config reg ev.2 = .ok fv.2)
      es filled)
    (hctor : get_constructor reg filled = .ok getter) :
    make_from_config reg (.map es) =
      .ok (getter.impl (parse_args filled).1 (parse_args filled).2) := by
  have hm : mfcEntries reg es = .ok filled := (mfcEntries_iff reg es filled).mpr hchild
  have hk := sigilKeys_congr (mfcEntries_keys hm)
  simp only [is_promise, decide_eq_true_eq] at hp
  simp only [make_from_config, Bind.bind, Except.bind, hm, hk]
  rw [if_pos hp]
  simp [hctor, pure, Except.pure]

/-- C5 witness: the spec's nested-promise scenario; both child promises
resolve into objects first and are passed positionally to the chain
constructor. -/
theorem C5_witness :
    registry.make_from_config regDemo chainConfig =
      .ok (.obj "Chain" [.obj "Embed" [.int 4, .int 10], .obj "Softmax" [.int 2]]) :=
  C5_depth_first_promise_resolution regDemo
    [("@layers", .str "Chain.v0"),
     ("0", .map [("@layers", .str "Embed.v0"), ("nO", .int 4), ("nV", .int 10)]),
     ("1", .map [("@layers", .str "Softmax.v0"), ("nO", .int 2)])]
    [("@layers", .str "Chain.v0"),
     ("0", .obj "Embed" [.int 4, .int 10]),
     ("1", .obj "Softmax" [.int 2])]
    chainCtor (by decide)
    (List.Forall₂.cons ⟨rfl, rfl⟩ (List.Forall₂.cons ⟨rfl, rfl⟩
      (List.Forall₂.cons ⟨rfl, rfl⟩ List.Forall₂.nil)))
    rfl

/-- C9: `registry.get` fails with an unknown-category error carrying the
category name when the category is absent, fails with an unknown-entry
error naming both the function name and the category when the category
exists but lacks the name, and returns the registered constructor
otherwise. -/
theorem C9_registry_get_errors (reg : Registry) (cat fname : String) :
    (dlookup reg cat = none →
      registry.get reg cat fname = .error (.unknownRegistry cat)) ∧
    (∀ entries, dlookup reg cat = some entries → dlookup entries fname = none →
      registry.get reg cat fname = .error (.unknownFunc fname cat)) ∧
    (∀ entries c, dlookup reg cat = some entries →
      dlookup entries fname = some c → registry.get reg cat fname = .ok c) := by
  refine ⟨fun h => ?_, fun entries h1 h2 => ?_, fun entries c h1 h2 => ?_⟩ <;>
    simp [registry.get, *]

/-! Inversion helpers for the Except plumbing. -/

@[simp] theorem tbind_ok (a : α) (f : α → Except Err β) :
    (Except.ok a >>= f) = f a := rfl

@[simp] theorem tbind_err (e : Err) (f : α → Except Err β) :
    ((Except.error e : Except Err α) >>= f) = .error e := rfl

@[simp] theorem tpure_eq (a : α) : (pure a : Except Err α) = .ok a := rfl

theorem bind_ok_inv {ma : Except Err α} {f : α → Except Err β} {b : β}
    (h : (ma >>= f) = .ok b) : ∃ a, ma = .ok a ∧ f a = .ok b := by
  cases ma with
  | error e => cases h
  | ok a => exact ⟨a, rfl, h⟩

theorem dlookup_isSome_of_mem_keys {es : List (String × α)} {k : String}
    (h : k ∈ es.map Prod.fst) : ∃ v, dlookup es k = some v := by
  induction es with
  | nil => simp at h
  | cons e rest ih =>
      obtain ⟨k2, v⟩ := e
      by_cases hk : k2 = k
      · exact ⟨v, by simp [hk]⟩
      · simp [hk] at h ⊢
        rcases h with h | h
        · exact absurd h.symm hk
        · exact ih (by simpa using h)

theorem get_err {reg : Registry} {cat fname : String} {e : Err}
    (h : registry.get reg cat fname = .error e) : isLookupErr e = true := by
  rw [registry.get] at h
  cases h1 : dlookup reg cat with
  | none => simp only [h1] at h; cases h; rfl
  | some entries =>
      simp only [h1] at h
      cases h2 : dlookup entries fname with
      | none => simp only [h2] at h; cases h; rfl
      | some c => simp only [h2] at h; cases h

theorem get_constructor_err {reg : Registry} {es : List (String × Node)}
    {e : Err} (h : get_constructor reg es = .error e) : isLookupErr e = true := by
  rw [get_constructor] at h
  cases hs : sigilKeys es with
  | nil => simp only [hs] at h; cases h; rfl
  | cons key tail =>
      cases tail with
      | cons b t => simp only [hs] at h; cases h; rfl
      | nil =>
          simp only [hs] at h
          have hmem : key ∈ es.map Prod.fst := by
            have hx : key ∈ sigilKeys es := by
              rw [hs]; exact List.mem_singleton_self key
            exact List.mem_of_mem_filter hx
          rcases dlookup_isSome_of_mem_keys hmem with ⟨v, hv⟩
          simp only [hv] at h
          cases v with
          | str s => exact get_err h
          | int n => cases h; rfl
          | bool b => cases h; rfl
          | map m => cases h; rfl
          | placeholder c => cases h; rfl
          | obj c d => cases h; rfl

mutual

theorem mfc_err (reg : Registry) (n : Node) (e : Err)
    (h : make_from_config reg n = .error e) : isLookupErr e = true :=
  match n with
  | .map es => by
      simp only [make_from_config, Bind.bind, Except.bind] at h
      cases hm : mfcEntries reg es with
      | error e2 =>
          simp only [hm] at h
          cases h
          exact mfcEntries_err reg es _ hm
      | ok filled =>
          simp only [hm] at h
          by_cases hsig : (sigilKeys filled).length = 1
          · rw [if_pos hsig] at h
            cases hc : get_constructor reg filled with
            | error e2 =>
                simp only [hc] at h
                cases h
                exact get_constructor_err hc
            | ok getter => simp only [hc, tpure_eq] at h; cases h
          · rw [if_neg hsig] at h; cases h
  | .str s => by cases h
  | .int i => by cases h
  | .bool b => by cases h
  | .placeholder c => by cases h
  | .obj c d => by cases h

theorem mfcEntries_err (reg : Registry) (es : List (String × Node)) (e : Err)
    (h : mfcEntries reg es = .error e) : isLookupErr e = true :=
  match es with
  | [] => by cases h
  | (k, v) :: rest => by
      simp only [mfcEntries, Bind.bind, Except.bind] at h
      cases hv : make_from_config reg v with
      | error e2 =>
          simp only [hv] at h
          cases h
          exact mfc_err reg v _ hv
      | ok r =>
          simp only [hv] at h
          cases hrest : mfcEntries reg rest with
          | error e2 =>
              simp only [hrest] at h
              cases h
              exact mfcEntries_err reg rest _ hrest
          | ok rs => simp only [hrest, tpure_eq] at h; cases h

end

/-- C2: the claim states that `make_from_config` performs fill-and-validate
before resolution, so that validation errors (for instance a missing
required field) surface before any constructor runs. It does not: on a
promise missing its required `nO` the constructor is invoked and resolution
succeeds, while `fill_and_validate` on the very same promise with its own
synthesized schema fails with the missing-field error. -/
theorem C2_counterexample :
    registry.make_from_config regDemo (.map [("@layers", .str "F.v0")]) =
      .ok (.obj "Req" []) ∧
    registry.make_promise_schema regDemo [("@layers", .str "F.v0")] =
      .ok (.model [("@layers", .base .tStr, none), ("nO", .base .tInt, none)]) ∧
    registry.fill_and_validate regDemo [("@layers", .str "F.v0")]
      (.model [("@layers", .base .tStr, none), ("nO", .base .tInt, none)]) =
      .error (.missingField "nO") := by
  exact ⟨rfl, rfl, rfl⟩

/-- C2 (amended): `make_from_config` does not perform fill-and-validate at
all: it resolves directly, invoking each promise's constructor on the
arguments exactly as supplied, and the only errors it can produce are
registry lookup or promise-shape errors — never a schema-validation error
such as a missing required field or an unknown field. -/
theorem C2_no_validation_in_make_from_config (reg : Registry) (n : Node)
    (e : Err) (h : make_from_config reg n = .error e) : isLookupErr e = true :=
  mfc_err reg n e h

/-- C2 witness: the amended theorem applied to the one failing run the demo
registry offers, an unknown entry name. -/
theorem C2_witness : isLookupErr (Err.unknownFunc "DoesNotExist.v0" "layers") = true :=
  C2_no_validation_in_make_from_config regDemo
    (.map [("@layers", .str "DoesNotExist.v0")]) _ rfl

/-! Inversion of the fill-and-validate pass. -/

theorem favEntries_nil (reg : Registry) (schema : Schema) :
    favEntries reg [] schema = .ok ([], []) := by
  simp [favEntries]

theorem favEntries_cons_inv {reg : Registry} {key : String} {value : Node}
    {rest : List (String × Node)} {schema : Schema}
    {fv : List (String × Node) × List (String × Node)}
    (h : favEntries reg ((key, value) :: rest) schema = .ok fv) :
    ∃ fx frest, favOne reg value schema key = .ok fx ∧
      favEntries reg rest schema = .ok frest ∧
      fv = ((key, fx.1) :: frest.1, (key, fx.2) :: frest.2) := by
  simp only [favEntries, Bind.bind, Except.bind] at h
  cases h1 : favOne reg value schema key with
  | error e => rw [h1] at h; cases h
  | ok fx =>
      rw [h1] at h
      cases h2 : favEntries reg rest schema with
      | error e => rw [h2] at h; cases h
      | ok frest =>
          rw [h2] at h
          cases h
          exact ⟨fx, frest, rfl, rfl, rfl⟩

theorem favOne_scalar {reg : Registry} {v : Node} {schema : Schema}
    {key : String} (h : isMapNode v = false) :
    favOne reg v schema key = .ok (v, v) := by
  cases v <;> simp_all [favOne, isMapNode]

theorem fav_inversion {reg : Registry} {config : List (String × Node)}
    {schema : Schema} {fv : List (String × Node) × List (String × Node)}
    (h : fill_and_validate reg config schema = .ok fv) :
    ∃ fields fvpre parsed, schema = .model fields ∧
      favEntries reg config schema = .ok fvpre ∧
      parse_obj fields fvpre.2 = .ok parsed ∧
      fv.2 = dictUpdate fvpre.2 parsed ∧
      fv.1 = fvpre.1 ++ (dictUpdate fvpre.2 parsed).filter
        (fun kv => !containsKey fvpre.1 kv.1) := by
  rw [fill_and_validate] at h
  rcases bind_ok_inv h with ⟨fvpre, hfe, hpost⟩
  rw [favPost.eq_def] at hpost
  cases schema with
  | base t => cases hpost
  | model fields =>
      rcases bind_ok_inv hpost with ⟨parsed, hp, hpure⟩
      have hx : Except.ok (fvpre.1 ++
        (dictUpdate fvpre.2 parsed).filter (fun kv => !containsKey fvpre.1 kv.1),
        dictUpdate fvpre.2 parsed) = Except.ok fv := hpure
      cases hx
      exact ⟨fields, fvpre, parsed, rfl, hfe, hp, rfl, rfl⟩

theorem favEntries_basic {reg : Registry} {config : List (String × Node)}
    {schema : Schema} {fv : List (String × Node) × List (String × Node)}
    (h : favEntries reg config schema = .ok fv) :
    fv.1.map Prod.fst = config.map Prod.fst ∧
    fv.2.map Prod.fst = config.map Prod.fst ∧
    (∀ k v, dlookup config k = some v → isMapNode v = false →
      dlookup fv.1 k = some v ∧ dlookup fv.2 k = some v) := by
  induction config generalizing fv with
  | nil =>
      rw [favEntries_nil] at h
      cases h
      simp
  | cons e rest ih =>
      obtain ⟨key, value⟩ := e
      rcases favEntries_cons_inv h with ⟨fx, frest, h1, h2, rfl⟩
      rcases ih h2 with ⟨hk1, hk2, hv⟩
      refine ⟨by simp [hk1], by simp [hk2], fun k v hl hs => ?_⟩
      by_cases hkey : key = k
      · subst hkey
        simp only [dlookup_cons, if_pos rfl] at hl ⊢
        cases hl
        rw [favOne_scalar hs] at h1
        cases h1
        exact ⟨rfl, rfl⟩
      · simp only [dlookup_cons, if_neg hkey] at hl ⊢
        exact hv k v hl hs

/-- C10: a field supplied in the input is never overwritten in the filled
tree — a supplied non-dict value reappears verbatim in `filled` (defaults
are copied only for keys absent from it) — while the validation tree holds
the schema-parsed value, so for a supplied scalar the two trees may hold
values of different types, as the concrete run shows (`filled` keeps the
int 5, `validation` holds the coerced string). -/
theorem fav_preserves_scalars {reg : Registry} {config : List (String × Node)}
    {schema : Schema} {fv : List (String × Node) × List (String × Node)}
    {k : String} {v : Node}
    (h : fill_and_validate reg config schema = .ok fv)
    (hl : dlookup config k = some v) (hs : isMapNode v = false) :
    dlookup fv.1 k = some v := by
  rcases fav_inversion h with ⟨fields, fvpre, parsed, hschema, hfe, hp, hv2, hv1⟩
  rcases favEntries_basic hfe with ⟨hk1, hk2, hval⟩
  rw [hv1, dlookup_append, (hval k v hl hs).1]
  rfl

theorem C10_supplied_values_not_overwritten :
    (∀ reg config schema fv k v,
      fill_and_validate reg config schema = .ok fv →
      dlookup config k = some v → isMapNode v = false →
      dlookup fv.1 k = some v) ∧
    registry.fill_and_validate [] [("n", .int 5)]
      (.model [("n", .base .tStr, none)]) =
      .ok ([("n", .int 5)], [("n", .str "5")]) := by
  constructor
  · intro reg config schema fv k v h hl hs
    exact fav_preserves_scalars h hl hs
  · rfl

/-- C10 witness: the general preservation statement applied to the concrete
run of the second conjunct. -/
theorem C10_witness :
    dlookup ([("n", Node.int 5)] : List (String × Node)) "n" =
      some (Node.int 5) :=
  C10_supplied_values_not_overwritten.1 [] [("n", .int 5)]
    (.model [("n", .base .tStr, none)]) ([("n", .int 5)], [("n", .str "5")])
    "n" (.int 5) C10_supplied_values_not_overwritten.2 rfl rfl

/-! Ordering lemmas for the positional sort. -/

theorem pairwise_keys_lt {l : List (Nat × α)}
    (hle : l.Pairwise (fun a b => a.1 ≤ b.1))
    (hnd : (l.map Prod.fst).Nodup) :
    l.Pairwise (fun a b => a.1 < b.1) := by
  have hne : l.Pairwise (fun a b => a.1 ≠ b.1) := List.pairwise_map.mp hnd
  exact (hle.and hne).imp (fun h => lt_of_le_of_ne h.1 h.2)

theorem eq_of_perm_sorted_keys {l₁ l₂ : List (Nat × α)}
    (hp : l₁.Perm l₂) (h1 : l₁.Pairwise (fun a b => a.1 < b.1))
    (h2 : l₂.Pairwise (fun a b => a.1 < b.1)) : l₁ = l₂ := by
  haveI : IsAntisymm (Nat × α) (fun a b => a.1 < b.1) :=
    ⟨fun a b hab hba => absurd (lt_trans hab hba) (lt_irrefl _)⟩
  exact List.eq_of_perm_of_sorted hp h1 h2

theorem sortPos_eq_of_perm {l₁ l₂ : List (Nat × α)}
    (hperm : l₁.Perm l₂) (hnd : (l₁.map Prod.fst).Nodup) :
    sortPos l₁ = sortPos l₂ := by
  have h1 := sortPos_perm l₁
  have h2 := sortPos_perm l₂
  have hp : (sortPos l₁).Perm (sortPos l₂) := h1.trans (hperm.trans h2.symm)
  have hnd1 : ((sortPos l₁).map Prod.fst).Nodup :=
    ((h1.map Prod.fst).nodup_iff).mpr hnd
  have hnd2 : ((sortPos l₂).map Prod.fst).Nodup :=
    ((h2.map Prod.fst).nodup_iff).mpr (((hperm.map Prod.fst).nodup_iff).mp hnd)
  exact eq_of_perm_sorted_keys hp
    (pairwise_keys_lt (sortPos_sorted l₁) hnd1)
    (pairwise_keys_lt (sortPos_sorted l₂) hnd2)

/-- C4: `parse_args` classifies a non-sigil key as positional exactly when
it is a digit string, returns the positional values ordered ascending by
the key's numeric value — a permutation of the digit entries, sorted, and
independent of insertion order when the numeric keys are distinct — keeps
every other non-sigil key as a keyword argument in insertion order, and
does not validate contiguity: the gap `0`,`2` yields a two-element list
with shifted positions, not an error. -/
theorem C4_parse_args_classification_and_order (es : List (String × Node)) :
    (parse_args es).2 =
      es.filter (fun kv => !hasSigil kv.1 && !isDigitKey kv.1) ∧
    (parse_args es).1 = (sortPos (digitEntries es)).map Prod.snd ∧
    (sortPos (digitEntries es)).Perm (digitEntries es) ∧
    (sortPos (digitEntries es)).Pairwise (fun a b => a.1 ≤ b.1) ∧
    (∀ es' : List (String × Node), es'.Perm es →
      ((digitEntries es).map Prod.fst).Nodup →
      (parse_args es').1 = (parse_args es).1) ∧
    (∀ a b : Node, parse_args [("0", a), ("2", b)] = ([a, b], [])) := by
  refine ⟨rfl, rfl, sortPos_perm _, sortPos_sorted _, fun es' hperm hnd => ?_,
    fun a b => rfl⟩
  have hde : (digitEntries es').Perm (digitEntries es) := by
    unfold digitEntries
    exact (hperm.filter _).map _
  have hnd' : ((digitEntries es').map Prod.fst).Nodup :=
    ((hde.map Prod.fst).nodup_iff).mpr hnd
  show (sortPos (digitEntries es')).map Prod.snd =
    (sortPos (digitEntries es)).map Prod.snd
  rw [sortPos_eq_of_perm hde hnd']

/-- C4 witness: a genuine transposition of the input entries leaves the
positional list unchanged, and the gap scenario returns the shifted
two-element list. -/
theorem C4_witness :
    (registry.parse_args [("0", Node.int 10), ("1", Node.int 20)]).1 =
      (registry.parse_args [("1", Node.int 20), ("0", Node.int 10)]).1 ∧
    registry.parse_args [("0", Node.int 7), ("2", Node.bool true)] =
      ([Node.int 7, Node.bool true], []) :=
  ⟨(C4_parse_args_classification_and_order
      [("1", Node.int 20), ("0", Node.int 10)]).2.2.2.2.1
      [("0", Node.int 10), ("1", Node.int 20)]
      (List.Perm.swap ("1", Node.int 20) ("0", Node.int 10) [])
      (by decide),
   (C4_parse_args_classification_and_order []).2.2.2.2.2
      (Node.int 7) (Node.bool true)⟩

/-! The extra-forbidden behavior of the synthesized schemas. -/

theorem parse_obj_extra {fields : List (String × Schema × Option Node)}
    {data : List (String × Node)} {k : String}
    (hk : containsKey data k = true)
    (hnot : fields.any (fun f => f.1 = k) = false) :
    ∃ e, parse_obj fields data = .error e := by
  rw [parse_obj]
  cases hf : data.find? (fun kv => !(fields.any (fun f => f.1 = kv.1))) with
  | some kv => exact ⟨.extraField kv.1, rfl⟩
  | none =>
      exfalso
      rcases List.any_eq_true.mp hk with ⟨kv, hmem, hkv⟩
      have hall := List.find?_eq_none.mp hf kv hmem
      simp only [Bool.not_eq_true', Bool.not_eq_false] at hall
      rw [show kv.1 = k from by simpa using hkv] at hall
      rw [hall] at hnot
      cases hnot

/-- C6: for a resolvable promise, the synthesized schema is exactly one
required string-typed field keyed by the sigil key followed by one field
per constructor parameter (typed by its annotation, defaulted by its
declared default, required when there is none), and the schema forbids
unknown fields: validating data carrying any key the constructor does not
declare fails rather than being silently ignored. -/
theorem C6_promise_schema_shape_and_extra_forbidden (reg : Registry)
    (es : List (String × Node)) (key : String) (c : Constructor)
    (hs : sigilKeys es = [key])
    (hc : get_constructor reg es = .ok c) :
    make_promise_schema reg es =
      .ok (.model ((key, Schema.base .tStr, none) ::
        c.params.map (fun p => (p.name, p.ty, p.dflt)))) ∧
    (∀ (data : List (String × Node)) (k2 : String),
      containsKey data k2 = true →
      (((key, Schema.base Ty.tStr, (none : Option Node)) ::
        c.params.map (fun p => (p.name, p.ty, p.dflt))).any
          (fun f => f.1 = k2)) = false →
      ∃ e, parse_obj ((key, Schema.base .tStr, none) ::
        c.params.map (fun p => (p.name, p.ty, p.dflt))) data = .error e) := by
  constructor
  · rw [make_promise_schema]
    simp only [hc, tbind_ok, hs, tpure_eq]
  · intro data k2 hk2 hnot
    exact parse_obj_extra hk2 hnot

/-- C6 witness: the schema synthesized for the one-parameter softmax
promise, and its rejection of data carrying the undeclared key `bogus`. -/
theorem C6_witness :
    registry.make_promise_schema regDemo [("@layers", .str "Softmax.v0")] =
      .ok (.model [("@layers", .base .tStr, none),
        ("nO", .base .tInt, some (.int 2))]) ∧
    (∃ e, parse_obj [("@layers", .base .tStr, none),
        ("nO", .base .tInt, some (.int 2))]
      [("@layers", Node.str "Softmax.v0"), ("bogus", Node.int 1)] = .error e) :=
  ⟨(C6_promise_schema_shape_and_extra_forbidden regDemo
      [("@layers", .str "Softmax.v0")] "@layers" softmaxCtor rfl rfl).1,
   (C6_promise_schema_shape_and_extra_forbidden regDemo
      [("@layers", .str "Softmax.v0")] "@layers" softmaxCtor rfl rfl).2
      [("@layers", Node.str "Softmax.v0"), ("bogus", Node.int 1)] "bogus"
      (by decide) (by decide)⟩

/-! Facts about pydantic field parsing, shared by the fill-and-validate
claims. -/

theorem parseFields_ok_facts {fields : List (String × Schema × Option Node)}
    {data parsed : List (String × Node)}
    (h : parseFields fields data = .ok parsed) :
    parsed.map Prod.fst = fields.map Prod.fst ∧
    List.Forall₂ (fun f p => f.1 = p.1 ∧
      ((∃ v w, dlookup data f.1 = some v ∧ validateValue f.2.1 v = .ok w ∧
        p.2 = w) ∨
       (dlookup data f.1 = none ∧ f.2.2 = some p.2))) fields parsed := by
  induction fields generalizing parsed with
  | nil =>
      simp only [parseFields, tpure_eq] at h
      cases h
      exact ⟨rfl, List.Forall₂.nil⟩
  | cons f rest ih =>
      obtain ⟨name, fty, dflt⟩ := f
      simp only [parseFields] at h
      rcases bind_ok_inv h with ⟨v, hmatch, h2⟩
      rcases bind_ok_inv h2 with ⟨vs, hrest, h3⟩
      have h4 : Except.ok ((name, v) :: vs) = Except.ok parsed := h3
      cases h4
      rcases ih hrest with ⟨hk, hff⟩
      refine ⟨by simp [hk], List.Forall₂.cons ⟨rfl, ?_⟩ hff⟩
      cases hl : dlookup data name with
      | some v0 =>
          rw [hl] at hmatch
          have hvv : validateValue fty v0 = .ok v := hmatch
          exact Or.inl ⟨v0, v, rfl, hvv, rfl⟩
      | none =>
          rw [hl] at hmatch
          cases dflt with
          | none =>
              have hx : (Except.error (Err.missingField name) :
                Except Err Node) = .ok v := hmatch
              cases hx
          | some d =>
              have hx : (Except.ok d : Except Err Node) = .ok v := hmatch
              cases hx
              exact Or.inr ⟨rfl, rfl⟩

theorem parse_obj_ok_inv {fields : List (String × Schema × Option Node)}
    {data parsed : List (String × Node)}
    (h : parse_obj fields data = .ok parsed) :
    (∀ kv ∈ data, fields.any (fun f => f.1 = kv.1) = true) ∧
    parseFields fields data = .ok parsed := by
  rw [parse_obj] at h
  cases hf : data.find? (fun kv => !(fields.any (fun f => f.1 = kv.1))) with
  | some kv => simp only [hf] at h; cases h
  | none =>
      simp only [hf] at h
      refine ⟨fun kv hmem => ?_, h⟩
      have hx := List.find?_eq_none.mp hf kv hmem
      simpa using hx

theorem parsed_default_of_missing
    {fields : List (String × Schema × Option Node)}
    {data parsed : List (String × Node)}
    (hff : List.Forall₂ (fun f p => f.1 = p.1 ∧
      ((∃ v w, dlookup data f.1 = some v ∧ validateValue f.2.1 v = .ok w ∧
        p.2 = w) ∨
       (dlookup data f.1 = none ∧ f.2.2 = some p.2))) fields parsed)
    (hnd : (fields.map Prod.fst).Nodup)
    {name : String} {s : Schema} {d : Node}
    (hmem : (name, s, some d) ∈ fields)
    (hdata : dlookup data name = none) :
    dlookup parsed name = some d := by
  induction fields generalizing parsed with
  | nil => simp at hmem
  | cons f fs ih =>
      cases hff with
      | cons hfp hrest =>
          rename_i p ps
          simp only [List.map_cons, List.nodup_cons] at hnd
          rcases List.mem_cons.mp hmem with heq | hmem2
          · subst heq
            rcases hfp with ⟨hk, hcase⟩
            rcases hcase with ⟨v, w, hv, _, _⟩ | ⟨_, hd⟩
            · simp only at hv
              rw [hdata] at hv
              cases hv
            · simp only at hd hk
              rw [dlookup_cons, if_pos hk.symm]
              rw [Option.some_inj] at hd
              rw [hd]
          · have hname : name ∈ fs.map Prod.fst :=
              List.mem_map.mpr ⟨(name, s, some d), hmem2, rfl⟩
            have hne : f.1 ≠ name := fun heq => hnd.1 (heq ▸ hname)
            rw [dlookup_cons, if_neg (hfp.1 ▸ hne)]
            exact ih hrest hnd.2 hmem2

theorem required_present {fields : List (String × Schema × Option Node)}
    {data parsed : List (String × Node)}
    (hff : List.Forall₂ (fun f p => f.1 = p.1 ∧
      ((∃ v w, dlookup data f.1 = some v ∧ validateValue f.2.1 v = .ok w ∧
        p.2 = w) ∨
       (dlookup data f.1 = none ∧ f.2.2 = some p.2))) fields parsed)
    {name : String} {s : Schema}
    (hmem : (name, s, (none : Option Node)) ∈ fields) :
    ∃ v, dlookup data name = some v := by
  induction fields generalizing parsed with
  | nil => simp at hmem
  | cons f fs ih =>
      cases hff with
      | cons hfp hrest =>
          rcases List.mem_cons.mp hmem with heq | hmem2
          · subst heq
            rcases hfp.2 with ⟨v, w, hv, _, _⟩ | ⟨_, hd⟩
            · exact ⟨v, hv⟩
            · simp only at hd; cases hd
          · exact ih hrest hmem2

/-! Key-level helpers for the filled tree. -/

theorem containsKey_keys (l : List (String × α)) (k : String) :
    containsKey l k = (l.map Prod.fst).any (fun k2 => k2 = k) := by
  induction l with
  | nil => rfl
  | cons e rest ih => simp [containsKey] at ih ⊢; rw [ih]

theorem containsKey_congr {l1 : List (String × α)} {l2 : List (String × β)}
    (h : l1.map Prod.fst = l2.map Prod.fst) (k : String) :
    containsKey l1 k = containsKey l2 k := by
  rw [containsKey_keys, containsKey_keys, h]

theorem containsKey_of_mem_keys {l : List (String × α)} {k : String}
    (h : k ∈ l.map Prod.fst) : containsKey l k = true := by
  rw [containsKey_keys]
  exact List.any_eq_true.mpr ⟨k, h, by simp⟩

theorem dlookup_filter_key {l : List (String × α)} {q : String → Bool}
    {k : String} (hq : q k = true) :
    dlookup (l.filter (fun kv => q kv.1)) k = dlookup l k := by
  induction l with
  | nil => rfl
  | cons e rest ih =>
      obtain ⟨k2, v⟩ := e
      by_cases hk : k2 = k
      · subst hk
        simp [List.filter_cons, hq]
      · cases hqe : q k2 <;> simp [List.filter_cons, hqe, hk, ih]

theorem filter_map_fst (l : List (String × α)) (q : String → Bool) :
    (l.filter (fun kv => q kv.1)).map Prod.fst = (l.map Prod.fst).filter q := by
  induction l with
  | nil => rfl
  | cons e rest ih =>
      cases hqe : q e.1 <;> simp [List.filter_cons, hqe, ih]

theorem filled_shape {f v parsed : List (String × Node)}
    (hk : f.map Prod.fst = v.map Prod.fst) :
    f ++ (dictUpdate v parsed).filter (fun kv => !containsKey f kv.1) =
    f ++ parsed.filter (fun kv => !containsKey v kv.1) := by
  unfold dictUpdate
  rw [List.filter_append]
  have h1 : (v.map (fun kv => (kv.1, (dlookup parsed kv.1).getD kv.2))).filter
      (fun kv => !containsKey f kv.1) = [] := by
    rw [List.filter_eq_nil_iff]
    intro kv hmem
    rcases List.mem_map.mp hmem with ⟨kv0, hkv0, rfl⟩
    have : containsKey f kv0.1 = true := by
      rw [containsKey_congr hk]
      exact containsKey_of_mem_keys (List.mem_map.mpr ⟨kv0, hkv0, rfl⟩)
    simp [this]
  have h2 : (parsed.filter (fun kv => !containsKey v kv.1)).filter
      (fun kv => !containsKey f kv.1) = parsed.filter (fun kv => !containsKey v kv.1) := by
    rw [List.filter_eq_self]
    intro kv hmem
    have := List.of_mem_filter hmem
    rw [containsKey_congr hk]
    exact this
  rw [h1, h2, List.nil_append]

theorem fav_ok_facts {reg : Registry}
    {config : List (String × Node)}
    {fields : List (String × Schema × Option Node)}
    {fv : List (String × Node) × List (String × Node)}
    (hnd : (fields.map Prod.fst).Nodup)
    (h : fill_and_validate reg config (.model fields) = .ok fv) :
    fv.1.map Prod.fst = config.map Prod.fst ++
      (fields.map Prod.fst).filter (fun n => !containsKey config n) ∧
    (∀ name s d, (name, s, some d) ∈ fields → containsKey config name = false →
      dlookup fv.1 name = some d) ∧
    (∀ name s, (name, s, (none : Option Node)) ∈ fields →
      containsKey config name = true) := by
  rcases fav_inversion h with ⟨fields2, fvpre, parsed, hfeq, hfe, hp, hv2, hv1⟩
  cases hfeq
  rcases favEntries_basic hfe with ⟨hk1, hk2, hscal⟩
  rcases parse_obj_ok_inv hp with ⟨hextra, hpf⟩
  rcases parseFields_ok_facts hpf with ⟨hpk, hff⟩
  rw [hv1, filled_shape (hk1.trans hk2.symm)]
  refine ⟨?_, fun name s d hmem hnc => ?_, fun name s hmem => ?_⟩
  · rw [List.map_append, hk1,
      filter_map_fst parsed (fun n => !containsKey fvpre.2 n), hpk]
    congr 1
    exact List.filter_congr (fun n hn => by rw [containsKey_congr hk2])
  · rw [dlookup_append]
    have hnone1 : dlookup fvpre.1 name = none := by
      apply dlookup_eq_none_of_not_containsKey
      rw [containsKey_congr hk1, hnc]
    have hq : (!containsKey fvpre.2 name) = true := by
      rw [containsKey_congr hk2, hnc]; rfl
    rw [hnone1, dlookup_filter_key (l := parsed) (q := fun n => !containsKey fvpre.2 n) hq]
    have hnone2 : dlookup fvpre.2 name = none := by
      apply dlookup_eq_none_of_not_containsKey
      rw [containsKey_congr hk2, hnc]
    rw [parsed_default_of_missing hff hnd hmem hnone2]
    rfl
  · rcases required_present hff hmem with ⟨v, hv⟩
    rw [containsKey_congr hk2.symm]
    rw [containsKey_eq_isSome, hv]
    rfl

/-- C7: whenever `fill_and_validate` succeeds against a model schema with
distinct field names, the filled tree's keys are exactly the input keys
followed by the schema fields absent from the input; every declared field
absent from the input appears in `filled` carrying its declared default
(so no field is omitted anywhere at this level, and a promise supplying
only its sigil key to an all-defaults constructor is filled with exactly
the declared defaults), and a field with no default can only have been
supplied. -/
theorem C7_fill_defaults_completeness (reg : Registry)
    (config : List (String × Node))
    (fields : List (String × Schema × Option Node))
    (fv : List (String × Node) × List (String × Node))
    (hnd : (fields.map Prod.fst).Nodup)
    (h : fill_and_validate reg config (.model fields) = .ok fv) :
    fv.1.map Prod.fst = config.map Prod.fst ++
      (fields.map Prod.fst).filter (fun n => !containsKey config n) ∧
    (∀ name s d, (name, s, some d) ∈ fields → containsKey config name = false →
      dlookup fv.1 name = some d) ∧
    (∀ name s, (name, s, (none : Option Node)) ∈ fields →
      containsKey config name = true) :=
  fav_ok_facts hnd h

/-- C7 witness: the softmax promise supplying only its sigil key is filled
with exactly the declared default for the single parameter. -/
theorem C7_witness :
    dlookup ([("@layers", Node.str "Softmax.v0"), ("nO", Node.int 2)] :
      List (String × Node)) "nO" = some (Node.int 2) :=
  (C7_fill_defaults_completeness regDemo [("@layers", .str "Softmax.v0")]
    [("@layers", .base .tStr, none), ("nO", .base .tInt, some (.int 2))]
    ([("@layers", .str "Softmax.v0"), ("nO", .int 2)],
     [("@layers", .str "Softmax.v0"), ("nO", .int 2)])
    (by decide)
    rfl).2.1
    "nO" (.base .tInt) (.int 2)
    (List.mem_cons_of_mem _ (List.mem_cons_self _ _)) (by decide)

/-- C9 witness: the three behaviors at concrete lookups in the demo
registry, including the spec's unknown-entry scenario naming both the
category and the name. -/
theorem C9_witness :
    registry.get regDemo "optimizers" "X.v0" =
      .error (.unknownRegistry "optimizers") ∧
    registry.get regDemo "layers" "DoesNotExist.v0" =
      .error (.unknownFunc "DoesNotExist.v0" "layers") ∧
    registry.get regDemo "layers" "Embed.v0" = .ok embedCtor :=
  ⟨(C9_registry_get_errors regDemo "optimizers" "X.v0").1 rfl,
   (C9_registry_get_errors regDemo "layers" "DoesNotExist.v0").2.1 _ rfl rfl,
   (C9_registry_get_errors regDemo "layers" "Embed.v0").2.2 _ embedCtor rfl rfl⟩

/-! Further dict lemmas, used by the idempotence development. -/

theorem dlookup_map_value (d : List (String × Node)) (g : String → Node → Node)
    (k : String) :
    dlookup (d.map (fun kv => (kv.1, g kv.1 kv.2))) k =
      (dlookup d k).map (g k) := by
  induction d with
  | nil => rfl
  | cons e rest ih =>
      obtain ⟨k2, v⟩ := e
      by_cases hk : k2 = k
      · subst hk; simp
      · simp [hk, ih]

theorem dlookup_dictUpdate (d new : List (String × Node)) (k : String) :
    dlookup (dictUpdate d new) k =
      match dlookup d k with
      | some v => some ((dlookup new k).getD v)
      | none => dlookup (new.filter (fun kv => !containsKey d kv.1)) k := by
  unfold dictUpdate
  rw [dlookup_append, dlookup_map_value d (fun k2 v => (dlookup new k2).getD v) k]
  cases hd : dlookup d k <;> rfl

theorem forall₂_mem_left {R : α → β → Prop} {l1 : List α} {l2 : List β}
    (h : List.Forall₂ R l1 l2) {a : α} (ha : a ∈ l1) : ∃ b ∈ l2, R a b := by
  induction h with
  | nil => simp at ha
  | cons hab hrest ih =>
      rcases List.mem_cons.mp ha with rfl | ha2
      · exact ⟨_, List.mem_cons_self _ _, hab⟩
      · rcases ih ha2 with ⟨b, hb, hab2⟩
        exact ⟨b, List.mem_cons_of_mem _ hb, hab2⟩

theorem forall₂_mem_right {R : α → β → Prop} {l1 : List α} {l2 : List β}
    (h : List.Forall₂ R l1 l2) {b : β} (hb : b ∈ l2) : ∃ a ∈ l1, R a b := by
  induction h with
  | nil => simp at hb
  | cons hab hrest ih =>
      rcases List.mem_cons.mp hb with rfl | hb2
      · exact ⟨_, List.mem_cons_self _ _, hab⟩
      · rcases ih hb2 with ⟨a, ha, hab2⟩
        exact ⟨a, List.mem_cons_of_mem _ ha, hab2⟩

theorem forall₂_dlookup_some {R : Node → Node → Prop}
    {l1 l2 : List (String × Node)}
    (h : List.Forall₂ (fun p q => p.1 = q.1 ∧ R p.2 q.2) l1 l2)
    {k : String} {a : Node} (ha : dlookup l1 k = some a) :
    ∃ b, dlookup l2 k = some b ∧ R a b := by
  induction h with
  | nil => simp at ha
  | cons hpq hrest ih =>
      rename_i p q ps qs
      rcases hpq with ⟨hk, hR⟩
      by_cases hpk : p.1 = k
      · have hq : q.1 = k := hk ▸ hpk
        obtain ⟨p1, p2⟩ := p
        obtain ⟨q1, q2⟩ := q
        simp only at hpk hq hR
        subst hpk hq
        simp only [dlookup_cons, if_pos rfl] at ha ⊢
        cases ha
        exact ⟨q2, rfl, hR⟩
      · have hq : ¬ q.1 = k := hk ▸ hpk
        obtain ⟨p1, p2⟩ := p
        obtain ⟨q1, q2⟩ := q
        simp only at hpk hq
        simp only [dlookup_cons, if_neg hpk, if_neg hq] at ha ⊢
        exact ih ha

theorem forall₂_dlookup_none {R : Node → Node → Prop}
    {l1 l2 : List (String × Node)}
    (h : List.Forall₂ (fun p q => p.1 = q.1 ∧ R p.2 q.2) l1 l2)
    {k : String} (ha : dlookup l1 k = none) : dlookup l2 k = none := by
  induction h with
  | nil => rfl
  | cons hpq hrest ih =>
      rename_i p q ps qs
      obtain ⟨p1, p2⟩ := p
      obtain ⟨q1, q2⟩ := q
      have hk : p1 = q1 := hpq.1
      subst hk
      by_cases hpk : p1 = k
      · simp only [dlookup_cons, if_pos hpk] at ha; cases ha
      · simp only [dlookup_cons, if_neg hpk] at ha ⊢
        exact ih ha

theorem mem_dlookup_of_nodup {l : List (String × α)} {k : String} {v : α}
    (hnd : (l.map Prod.fst).Nodup) (hmem : (k, v) ∈ l) :
    dlookup l k = some v := by
  induction l with
  | nil => simp at hmem
  | cons e rest ih =>
      obtain ⟨k2, v2⟩ := e
      simp only [List.map_cons, List.nodup_cons] at hnd
      rcases List.mem_cons.mp hmem with heq | hmem2
      · cases heq; simp
      · have hk : k ∈ rest.map Prod.fst :=
          List.mem_map.mpr ⟨(k, v), hmem2, rfl⟩
        have hne : k2 ≠ k := fun h => hnd.1 (h ▸ hk)
        simp only [dlookup_cons, if_neg hne]
        exact ih hnd.2 hmem2

theorem filter_contained_nil {l F : List (String × Node)}
    (h : ∀ kv ∈ l, containsKey F kv.1 = true) :
    l.filter (fun kv => !containsKey F kv.1) = [] := by
  rw [List.filter_eq_nil_iff]
  intro kv hmem
  simp [h kv hmem]

theorem distinctKeys_iff {l : List String} : distinctKeys l = true ↔ l.Nodup := by
  induction l with
  | nil => simp [distinctKeys]
  | cons k rest ih =>
      simp only [distinctKeys, Bool.and_eq_true, Bool.not_eq_true',
        List.any_eq_false, decide_eq_true_eq, List.nodup_cons, ih]
      constructor
      · rintro ⟨hc, hnd⟩
        exact ⟨fun hmem => hc k hmem rfl, hnd⟩
      · rintro ⟨hmem, hnd⟩
        exact ⟨fun a ha heq => hmem (heq ▸ ha), hnd⟩

/-! Extraction of the well-formedness predicates. -/

theorem wfSchema_model_inv {fields : List (String × Schema × Option Node)}
    (h : wfSchema (.model fields) = true) :
    distinctKeys (fields.map Prod.fst) = true ∧ wfFields fields = true := by
  rw [wfSchema] at h
  exact Bool.and_eq_true_iff.mp h

theorem wfFields_cons_inv {name : String} {s : Schema} {d : Option Node}
    {rest : List (String × Schema × Option Node)}
    (h : wfFields ((name, s, d) :: rest) = true) :
    wfSchema s = true ∧
    (∀ dv, d = some dv → hasSigil name = false ∧ isMapNode dv = false ∧
      isOkE (validateValue s dv) = true) ∧
    wfFields rest = true := by
  have hx : (wfSchema s && wfDefault name s d && wfFields rest) = true := h
  simp only [Bool.and_eq_true] at hx
  refine ⟨hx.1.1, fun dv hdv => ?_, hx.2⟩
  subst hdv
  have hy : (!hasSigil name && !isMapNode dv &&
    isOkE (validateValue s dv)) = true := hx.1.2
  simp only [Bool.and_eq_true, Bool.not_eq_true'] at hy
  exact ⟨hy.1.1, hy.1.2, hy.2⟩

theorem wfFields_mem {fields : List (String × Schema × Option Node)}
    (hwf : wfFields fields = true) {name : String} {s : Schema} {d : Option Node}
    (hmem : (name, s, d) ∈ fields) :
    wfSchema s = true ∧
    (∀ dv, d = some dv → hasSigil name = false ∧ isMapNode dv = false ∧
      isOkE (validateValue s dv) = true) := by
  induction fields with
  | nil => simp at hmem
  | cons f rest ih =>
      obtain ⟨n2, s2, d2⟩ := f
      rcases wfFields_cons_inv hwf with ⟨h1, h2, h3⟩
      rcases List.mem_cons.mp hmem with heq | hmem2
      · cases heq
        exact ⟨h1, h2⟩
      · exact ih h3 hmem2

theorem forall₂_and {R S : α → β → Prop} {l1 : List α} {l2 : List β}
    (hR : List.Forall₂ R l1 l2) (hS : List.Forall₂ S l1 l2) :
    List.Forall₂ (fun a b => R a b ∧ S a b) l1 l2 := by
  induction hR with
  | nil => exact List.Forall₂.nil
  | cons hab hrest ih =>
      cases hS with
      | cons hab2 hrest2 => exact List.Forall₂.cons ⟨hab, hab2⟩ (ih hrest2)

/-! Sufficient conditions for pydantic parsing to succeed. -/

theorem find_extra_none {fields : List (String × Schema × Option Node)}
    {data : List (String × Node)}
    (h : ∀ kv ∈ data, containsKey fields kv.1 = true) :
    data.find? (fun kv => !(fields.any (fun f => f.1 = kv.1))) = none := by
  rw [List.find?_eq_none]
  intro kv hmem
  have hx := h kv hmem
  rw [containsKey] at hx
  simp [hx]

theorem parseFields_ok_of {fields : List (String × Schema × Option Node)}
    {data : List (String × Node)}
    (hcond : ∀ name fty dflt, (name, fty, dflt) ∈ fields →
       (∃ v w, dlookup data name = some v ∧ validateValue fty v = .ok w) ∨
       (dlookup data name = none ∧ ∃ d, dflt = some d)) :
    ∃ p2, parseFields fields data = .ok p2 := by
  induction fields with
  | nil => exact ⟨[], rfl⟩
  | cons f rest ih =>
      obtain ⟨name, fty, dflt⟩ := f
      rcases ih (fun n t dd hm => hcond n t dd (List.mem_cons_of_mem _ hm))
        with ⟨ps, hps⟩
      rcases hcond name fty dflt (List.mem_cons_self _ _) with
        ⟨v, w, hl, hv⟩ | ⟨hl, d, hd⟩
      · refine ⟨(name, w) :: ps, ?_⟩
        have heq : parseFields ((name, fty, dflt) :: rest) data =
            validateValue fty v >>= fun v1 =>
            parseFields rest data >>= fun vs => pure ((name, v1) :: vs) := by
          simp only [parseFields]
          rw [hl]
        rw [heq, hv, tbind_ok, hps, tbind_ok, tpure_eq]
      · subst hd
        refine ⟨(name, d) :: ps, ?_⟩
        have heq : parseFields ((name, fty, some d) :: rest) data =
            (pure d : Except Err Node) >>= fun v1 =>
            parseFields rest data >>= fun vs => pure ((name, v1) :: vs) := by
          simp only [parseFields]
          rw [hl]
        rw [heq, tpure_eq, tbind_ok, hps, tbind_ok, tpure_eq]

theorem parse_obj_ok_of {fields : List (String × Schema × Option Node)}
    {data : List (String × Node)}
    (hkeys : ∀ kv ∈ data, containsKey fields kv.1 = true)
    (hcond : ∀ name fty dflt, (name, fty, dflt) ∈ fields →
       (∃ v w, dlookup data name = some v ∧ validateValue fty v = .ok w) ∨
       (dlookup data name = none ∧ ∃ d, dflt = some d)) :
    ∃ p2, parse_obj fields data = .ok p2 := by
  rcases parseFields_ok_of hcond with ⟨p2, hp2⟩
  refine ⟨p2, ?_⟩
  rw [parse_obj, find_extra_none hkeys]
  exact hp2

/-! Revalidation: values a successful validation produced validate again. -/

theorem coerceBase_idem {t : Ty} {v w : Node} (h : coerceBase t v = .ok w) :
    coerceBase t w = .ok w := by
  cases t with
  | tAny =>
      have hx : (Except.ok v : Except Err Node) = .ok w := h
      cases hx
      rfl
  | tStr =>
      cases v with
      | str s =>
          have hx : (Except.ok (Node.str s) : Except Err Node) = .ok w := h
          cases hx; rfl
      | int n =>
          have hx : (Except.ok (Node.str (toString n)) :
            Except Err Node) = .ok w := h
          cases hx; rfl
      | bool b =>
          have hx : (Except.ok (Node.str (if b then "True" else "False")) :
            Except Err Node) = .ok w := h
          cases hx; cases b <;> rfl
      | map m =>
          have hx : (Except.error Err.typeMismatch :
            Except Err Node) = .ok w := h
          cases hx
      | placeholder c =>
          have hx : (Except.error Err.typeMismatch :
            Except Err Node) = .ok w := h
          cases hx
      | obj c d =>
          have hx : (Except.error Err.typeMismatch :
            Except Err Node) = .ok w := h
          cases hx
  | tInt =>
      cases v with
      | int n =>
          have hx : (Except.ok (Node.int n) : Except Err Node) = .ok w := h
          cases hx; rfl
      | bool b =>
          have hx : (Except.ok (Node.int (if b then 1 else 0)) :
            Except Err Node) = .ok w := h
          cases hx; cases b <;> rfl
      | str s =>
          have hx : (match s.toInt? with
            | some n => Except.ok (Node.int n)
            | none => (Except.error Err.typeMismatch : Except Err Node)) =
            .ok w := h
          cases hto : s.toInt? with
          | some n =>
              rw [hto] at hx
              have hy : (Except.ok (Node.int n) : Except Err Node) = .ok w := hx
              cases hy; rfl
          | none =>
              rw [hto] at hx
              cases hx
      | map m =>
          have hx : (Except.error Err.typeMismatch :
            Except Err Node) = .ok w := h
          cases hx
      | placeholder c =>
          have hx : (Except.error Err.typeMismatch :
            Except Err Node) = .ok w := h
          cases hx
      | obj c d =>
          have hx : (Except.error Err.typeMismatch :
            Except Err Node) = .ok w := h
          cases hx
  | tBool =>
      cases v with
      | bool b =>
          have hx : (Except.ok (Node.bool b) : Except Err Node) = .ok w := h
          cases hx; rfl
      | int n =>
          have hx : (if n = 0 then Except.ok (Node.bool false)
            else if n = 1 then Except.ok (Node.bool true)
            else (Except.error Err.typeMismatch : Except Err Node)) = .ok w := h
          split_ifs at hx
          · cases hx; rfl
          · cases hx; rfl
      | str s =>
          have hx : (if s = "true" ∨ s = "True" ∨ s = "1" then
              Except.ok (Node.bool true)
            else if s = "false" ∨ s = "False" ∨ s = "0" then
              Except.ok (Node.bool false)
            else (Except.error Err.typeMismatch : Except Err Node)) = .ok w := h
          split_ifs at hx
          · cases hx; rfl
          · cases hx; rfl
      | map m =>
          have hx : (Except.error Err.typeMismatch :
            Except Err Node) = .ok w := h
          cases hx
      | placeholder c =>
          have hx : (Except.error Err.typeMismatch :
            Except Err Node) = .ok w := h
          cases hx
      | obj c d =>
          have hx : (Except.error Err.typeMismatch :
            Except Err Node) = .ok w := h
          cases hx
  | tCls c =>
      cases v with
      | placeholder c2 =>
          have hx : (if c = c2 then Except.ok (Node.placeholder c2)
            else (Except.error Err.typeMismatch : Except Err Node)) = .ok w := h
          split_ifs at hx with hc
          · cases hx
            show (if c = c2 then Except.ok (Node.placeholder c2)
              else (Except.error Err.typeMismatch : Except Err Node)) =
              .ok (Node.placeholder c2)
            rw [if_pos hc]
      | obj c2 d =>
          have hx : (if c = c2 then Except.ok (Node.obj c2 d)
            else (Except.error Err.typeMismatch : Except Err Node)) = .ok w := h
          split_ifs at hx with hc
          · cases hx
            show (if c = c2 then Except.ok (Node.obj c2 d)
              else (Except.error Err.typeMismatch : Except Err Node)) =
              .ok (Node.obj c2 d)
            rw [if_pos hc]
      | str s =>
          have hx : (Except.error Err.typeMismatch :
            Except Err Node) = .ok w := h
          cases hx
      | int n =>
          have hx : (Except.error Err.typeMismatch :
            Except Err Node) = .ok w := h
          cases hx
      | bool b =>
          have hx : (Except.error Err.typeMismatch :
            Except Err Node) = .ok w := h
          cases hx
      | map m =>
          have hx : (Except.error Err.typeMismatch :
            Except Err Node) = .ok w := h
          cases hx

mutual

theorem revalidate_ok {s : Schema} {v w : Node}
    (h : validateValue s v = .ok w) (hwf : wfSchema s = true) :
    ∃ w2, validateValue s w = .ok w2 :=
  match s, v with
  | .base t, v => by
      have hc : coerceBase t v = .ok w := h
      exact ⟨w, coerceBase_idem hc⟩
  | .model fields, .map es => by
      simp only [validateValue] at h
      rcases bind_ok_inv h with ⟨parsed, hmatch, hpure⟩
      have hx : (Except.ok (Node.map parsed) : Except Err Node) = .ok w := hpure
      cases hx
      rcases wfSchema_model_inv hwf with ⟨hnd, hwff⟩
      cases hfind : es.find? (fun kv => !(fields.any (fun f => f.1 = kv.1))) with
      | some kv =>
          rw [hfind] at hmatch
          have hx2 : (Except.error (Err.extraField kv.1) : Except Err _) =
            .ok parsed := hmatch
          cases hx2
      | none =>
          rw [hfind] at hmatch
          have hpf : parseFields fields es = .ok parsed := hmatch
          rcases parseFields_ok_facts hpf with ⟨hpk, hff⟩
          have hok := revalidate_fields hpf hwff
          have hndp : (parsed.map Prod.fst).Nodup := by
            rw [hpk]; exact distinctKeys_iff.mp hnd
          have hcond : ∀ name fty dflt, (name, fty, dflt) ∈ fields →
              (∃ v2 w2, dlookup parsed name = some v2 ∧
                validateValue fty v2 = .ok w2) ∨
              (dlookup parsed name = none ∧ ∃ d, dflt = some d) := by
            intro name fty dflt hmem
            rcases forall₂_mem_left (forall₂_and hff hok) hmem with
              ⟨p, hp, ⟨hk1, _⟩, w2, hw2⟩
            obtain ⟨pk, pv⟩ := p
            simp only at hk1 hw2
            subst hk1
            exact Or.inl ⟨pv, w2, mem_dlookup_of_nodup hndp hp, hw2⟩
          have hkeys : ∀ kv ∈ parsed, containsKey fields kv.1 = true := by
            intro kv hmem
            apply containsKey_of_mem_keys
            rw [← hpk]
            exact List.mem_map.mpr ⟨kv, hmem, rfl⟩
          rcases parse_obj_ok_of hkeys hcond with ⟨p2, hp2⟩
          refine ⟨.map p2, ?_⟩
          have heq : validateValue (.model fields) (.map parsed) =
              parse_obj fields parsed >>= fun p => pure (Node.map p) := by
            simp only [validateValue, parse_obj]
          rw [heq, hp2, tbind_ok, tpure_eq]
  | .model fields, .str s2 => by simp only [validateValue] at h; cases h
  | .model fields, .int n => by simp only [validateValue] at h; cases h
  | .model fields, .bool b => by simp only [validateValue] at h; cases h
  | .model fields, .placeholder c => by simp only [validateValue] at h; cases h
  | .model fields, .obj c d => by simp only [validateValue] at h; cases h

theorem revalidate_fields {fields : List (String × Schema × Option Node)}
    {data parsed : List (String × Node)}
    (h : parseFields fields data = .ok parsed) (hwf : wfFields fields = true) :
    List.Forall₂ (fun f p => ∃ w2, validateValue f.2.1 p.2 = .ok w2)
      fields parsed :=
  match fields, parsed with
  | [], _ => by
      simp only [parseFields, tpure_eq] at h
      cases h
      exact List.Forall₂.nil
  | (name, fty, dflt) :: rest, parsed => by
      simp only [parseFields] at h
      rcases bind_ok_inv h with ⟨v, hmatch, h2⟩
      rcases bind_ok_inv h2 with ⟨vs, hrest, h3⟩
      have h4 : Except.ok ((name, v) :: vs) = Except.ok parsed := h3
      cases h4
      rcases wfFields_cons_inv hwf with ⟨hws, hd, hwrest⟩
      refine List.Forall₂.cons ?_ (revalidate_fields hrest hwrest)
      cases hl : dlookup data name with
      | some v0 =>
          rw [hl] at hmatch
          have hvv : validateValue fty v0 = .ok v := hmatch
          exact revalidate_ok hvv hws
      | none =>
          rw [hl] at hmatch
          cases dflt with
          | none =>
              have hx : (Except.error (Err.missingField name) :
                Except Err Node) = .ok v := hmatch
              cases hx
          | some d =>
              have hx : (Except.ok d : Except Err Node) = .ok v := hmatch
              cases hx
              rcases hd v rfl with ⟨_, _, hok2⟩
              revert hok2
              cases hvv : validateValue fty v with
              | error e =>
                  intro hok2
                  have hz : false = true := hok2
                  cases hz
              | ok w2 => intro _; exact ⟨w2, rfl⟩

end

/-! The post-validation dict of a successful pass revalidates. -/

theorem post_revalidates {fields : List (String × Schema × Option Node)}
    {v_pre parsed : List (String × Node)}
    (hp : parse_obj fields v_pre = .ok parsed)
    (hwf : wfSchema (.model fields) = true) :
    ∃ p2, parse_obj fields (dictUpdate v_pre parsed) = .ok p2 := by
  rcases wfSchema_model_inv hwf with ⟨hnd, hwff⟩
  rcases parse_obj_ok_inv hp with ⟨hextra, hpf⟩
  rcases parseFields_ok_facts hpf with ⟨hpk, hff⟩
  have hok := revalidate_fields hpf hwff
  have hndp : (parsed.map Prod.fst).Nodup := by
    rw [hpk]; exact distinctKeys_iff.mp hnd
  apply parse_obj_ok_of
  · intro kv hmem
    unfold dictUpdate at hmem
    rcases List.mem_append.mp hmem with hm | hm
    · rcases List.mem_map.mp hm with ⟨kv0, hkv0, rfl⟩
      exact hextra kv0 hkv0
    · have hmp : kv ∈ parsed := List.mem_of_mem_filter hm
      apply containsKey_of_mem_keys
      rw [← hpk]
      exact List.mem_map.mpr ⟨kv, hmp, rfl⟩
  · intro name fty dflt hmem
    rcases forall₂_mem_left (forall₂_and hff hok) hmem with
      ⟨p, hpmem, ⟨hk1, _⟩, w2, hw2⟩
    obtain ⟨pk, pv⟩ := p
    simp only at hk1 hw2
    subst hk1
    have hdl : dlookup parsed name = some pv := mem_dlookup_of_nodup hndp hpmem
    have hdu : dlookup (dictUpdate v_pre parsed) name = some pv := by
      rw [dlookup_dictUpdate]
      cases hvp : dlookup v_pre name with
      | some v0 => simp [hdl]
      | none =>
          have hq : (!containsKey v_pre name) = true := by
            rw [containsKey_eq_isSome, hvp]; rfl
          rw [dlookup_filter_key (l := parsed)
            (q := fun n => !containsKey v_pre n) hq]
          exact hdl
    exact Or.inl ⟨pv, w2, hdu, hw2⟩

theorem fav_output_revalidates {reg : Registry}
    {config : List (String × Node)}
    {fields : List (String × Schema × Option Node)}
    {fv : List (String × Node) × List (String × Node)}
    (hwf : wfSchema (.model fields) = true)
    (h : fill_and_validate reg config (.model fields) = .ok fv) :
    ∃ p2, parse_obj fields fv.2 = .ok p2 := by
  rcases fav_inversion h with ⟨fields2, fvpre, parsed, hfeq, hfe, hp, hv2, hv1⟩
  cases hfeq
  rw [hv2]
  exact post_revalidates hp hwf

theorem validateValue_model_ok {fields : List (String × Schema × Option Node)}
    {es p : List (String × Node)} (h : parse_obj fields es = .ok p) :
    validateValue (.model fields) (.map es) = .ok (.map p) := by
  have heq : validateValue (.model fields) (.map es) =
      parse_obj fields es >>= fun parsed => pure (Node.map parsed) := by
    simp only [validateValue, parse_obj]
  rw [heq, h, tbind_ok, tpure_eq]

/-! Structure of the fill-and-validate pass. -/

theorem favEntries_append {reg : Registry} {a b : List (String × Node)}
    {schema : Schema} {fa fb : List (String × Node) × List (String × Node)}
    (ha : favEntries reg a schema = .ok fa)
    (hb : favEntries reg b schema = .ok fb) :
    favEntries reg (a ++ b) schema = .ok (fa.1 ++ fb.1, fa.2 ++ fb.2) := by
  induction a generalizing fa with
  | nil =>
      rw [favEntries_nil] at ha
      cases ha
      simpa using hb
  | cons e rest ih =>
      obtain ⟨key, value⟩ := e
      rcases favEntries_cons_inv ha with ⟨fx, frest, h1, h2, rfl⟩
      have hr := ih h2
      simp only [List.cons_append, favEntries, h1, tbind_ok, List.append_eq,
        hr, tpure_eq]

theorem favEntries_id_of_scalars {reg : Registry} {l : List (String × Node)}
    {schema : Schema} (h : ∀ kv ∈ l, isMapNode kv.2 = false) :
    favEntries reg l schema = .ok (l, l) := by
  induction l with
  | nil => rfl
  | cons e rest ih =>
      obtain ⟨key, value⟩ := e
      have h1 : favOne reg value schema key = .ok (value, value) :=
        favOne_scalar (h (key, value) (List.mem_cons_self _ _))
      simp only [favEntries, h1, tbind_ok,
        ih (fun kv hm => h kv (List.mem_cons_of_mem _ hm)), tbind_ok, tpure_eq]

/-! Inversion of the loop body on mapping values. -/

theorem favOne_promise_inv {reg : Registry} {es : List (String × Node)}
    {schema : Schema} {key : String} {fx : Node × Node}
    (hsig : (sigilKeys es).length = 1)
    (h : favOne reg (.map es) schema key = .ok fx) :
    ∃ psch f ty, make_promise_schema reg es = .ok psch ∧
      fill_and_validate reg es psch = .ok f ∧
      get_return_type reg es = .ok ty ∧
      fx = (.map f.1, .placeholder ty) := by
  simp only [favOne] at h
  rw [if_pos hsig] at h
  rcases bind_ok_inv h with ⟨psch, h1, h2⟩
  rcases bind_ok_inv h2 with ⟨f, hf, h3⟩
  rcases bind_ok_inv h3 with ⟨ty, hty, h4⟩
  have hx : (Except.ok (Node.map f.1, Node.placeholder ty) :
    Except Err (Node × Node)) = .ok fx := h4
  cases hx
  exact ⟨psch, f, ty, h1, hf, hty, rfl⟩

theorem favOne_map_inv {reg : Registry} {es : List (String × Node)}
    {schema : Schema} {key : String} {fx : Node × Node}
    (hsig : ¬ (sigilKeys es).length = 1)
    (h : favOne reg (.map es) schema key = .ok fx) :
    ∃ fields fd fvv, schema = .model fields ∧
      dlookup fields key = some fd ∧
      fill_and_validate reg es fd.1 = .ok fvv ∧
      fx = (.map fvv.1, .map fvv.2) := by
  simp only [favOne] at h
  rw [if_neg hsig] at h
  cases schema with
  | base t =>
      have hx : (Except.error Err.attrErr : Except Err (Node × Node)) =
        .ok fx := h
      cases hx
  | model fields =>
      have h2 : (match dlookup fields key with
        | some fd =>
            (favEntries reg es fd.1 >>= favPost fd.1) >>= fun fvv =>
            pure (Node.map fvv.1, Node.map fvv.2)
        | none => (Except.error (Err.keyErr key) :
            Except Err (Node × Node))) = .ok fx := h
      cases hfd : dlookup fields key with
      | none =>
          rw [hfd] at h2
          have hx : (Except.error (Err.keyErr key) :
            Except Err (Node × Node)) = .ok fx := h2
          cases hx
      | some fd =>
          rw [hfd] at h2
          have h3 : ((favEntries reg es fd.1 >>= favPost fd.1) >>= fun fvv =>
            pure (Node.map fvv.1, Node.map fvv.2)) = .ok fx := h2
          rcases bind_ok_inv h3 with ⟨fvv, hfv, h4⟩
          have hx : (Except.ok (Node.map fvv.1, Node.map fvv.2) :
            Except Err (Node × Node)) = .ok fx := h4
          cases hx
          exact ⟨fields, fd, fvv, rfl, hfd, hfv, rfl⟩

/-! Congruence of the promise machinery in the sigil entry. -/

theorem get_constructor_congr {reg : Registry} {es nf : List (String × Node)}
    (hsig : sigilKeys nf = sigilKeys es)
    (hval : ∀ key, sigilKeys es = [key] → dlookup nf key = dlookup es key) :
    get_constructor reg nf = get_constructor reg es := by
  rw [get_constructor, get_constructor, hsig]
  cases hs : sigilKeys es with
  | nil => rfl
  | cons key tail =>
      cases tail with
      | nil => simp only [hval key hs]
      | cons b t => rfl

theorem make_promise_schema_congr {reg : Registry}
    {es nf : List (String × Node)}
    (hsig : sigilKeys nf = sigilKeys es)
    (hval : ∀ key, sigilKeys es = [key] → dlookup nf key = dlookup es key) :
    make_promise_schema reg nf = make_promise_schema reg es := by
  simp only [make_promise_schema, get_constructor_congr hsig hval, hsig]

theorem get_return_type_congr {reg : Registry} {es nf : List (String × Node)}
    (hsig : sigilKeys nf = sigilKeys es)
    (hval : ∀ key, sigilKeys es = [key] → dlookup nf key = dlookup es key) :
    get_return_type reg nf = get_return_type reg es := by
  simp only [get_return_type, get_constructor_congr hsig hval]

theorem get_constructor_ok_inv {reg : Registry} {es : List (String × Node)}
    {c : Constructor} (h : get_constructor reg es = .ok c) :
    ∃ key fname, sigilKeys es = [key] ∧
      dlookup es key = some (.str fname) ∧
      registry.get reg (dropSigil key) fname = .ok c := by
  rw [get_constructor] at h
  cases hs : sigilKeys es with
  | nil => simp only [hs] at h; cases h
  | cons key tail =>
      cases tail with
      | cons b t => simp only [hs] at h; cases h
      | nil =>
          simp only [hs] at h
          cases hv : dlookup es key with
          | none => simp only [hv] at h; cases h
          | some v =>
              simp only [hv] at h
              cases v with
              | str fname => exact ⟨key, fname, rfl, hv, h⟩
              | int n => cases h
              | bool b => cases h
              | map m => cases h
              | placeholder c2 => cases h
              | obj c2 d => cases h

/-! A synthesized promise schema over a well-formed registry is itself a
well-formed schema. -/

theorem registry_get_mem {reg : Registry} {cat fname : String}
    {c : Constructor} (h : registry.get reg cat fname = .ok c) :
    ∃ entries, (cat, entries) ∈ reg ∧ (fname, c) ∈ entries := by
  rw [registry.get] at h
  cases h1 : dlookup reg cat with
  | none => simp only [h1] at h; cases h
  | some entries =>
      simp only [h1] at h
      cases h2 : dlookup entries fname with
      | none => simp only [h2] at h; cases h
      | some c2 =>
          simp only [h2] at h
          cases h
          exact ⟨entries, dlookup_mem h1, dlookup_mem h2⟩

theorem wfReg_ctor {reg : Registry} (hreg : wfReg reg = true)
    {es : List (String × Node)} {c : Constructor}
    (h : get_constructor reg es = .ok c) : wfCtor c = true := by
  rcases get_constructor_ok_inv h with ⟨key, fname, hs, hv, hg⟩
  rcases registry_get_mem hg with ⟨entries, hm1, hm2⟩
  rw [wfReg, List.all_eq_true] at hreg
  have h1 : entries.all (fun e => wfCtor e.2) = true := hreg _ hm1
  rw [List.all_eq_true] at h1
  exact h1 _ hm2

theorem wfFields_of_params {params : List Param}
    (h : ∀ p ∈ params, wfParam p = true) :
    wfFields (params.map (fun p => (p.name, p.ty, p.dflt))) = true := by
  induction params with
  | nil => rfl
  | cons p ps ih =>
      have hp := h p (List.mem_cons_self _ _)
      rw [wfParam] at hp
      simp only [Bool.and_eq_true] at hp
      show (wfSchema p.ty && wfDefault p.name p.ty p.dflt &&
        wfFields (ps.map (fun p => (p.name, p.ty, p.dflt)))) = true
      rw [Bool.and_eq_true, Bool.and_eq_true]
      exact ⟨⟨hp.1.2, hp.2⟩, ih (fun q hq => h q (List.mem_cons_of_mem _ hq))⟩

theorem wf_promise_schema {reg : Registry} {es : List (String × Node)}
    {ps : Schema} (hreg : wfReg reg = true)
    (h : make_promise_schema reg es = .ok ps) : wfSchema ps = true := by
  simp only [make_promise_schema] at h
  rcases bind_ok_inv h with ⟨func, hc, hmatch⟩
  rcases get_constructor_ok_inv hc with ⟨key, fname, hs, hv, hg⟩
  rw [hs] at hmatch
  have hps : (Except.ok (Schema.model ((key, Schema.base .tStr, none) ::
      func.params.map (fun p => (p.name, p.ty, p.dflt)))) :
    Except Err Schema) = .ok ps := hmatch
  cases hps
  have hctor := wfReg_ctor hreg hc
  rw [wfCtor, Bool.and_eq_true] at hctor
  rcases hctor with ⟨hdk, hall⟩
  rw [List.all_eq_true] at hall
  have hsigkey : hasSigil key = true := by
    have hmem : key ∈ sigilKeys es := by
      rw [hs]; exact List.mem_singleton_self key
    exact List.of_mem_filter hmem
  rw [wfSchema, Bool.and_eq_true]
  constructor
  · rw [distinctKeys_iff]
    have hnames : ((key, Schema.base Ty.tStr, (none : Option Node)) ::
        func.params.map (fun p => (p.name, p.ty, p.dflt))).map Prod.fst =
        key :: func.params.map Param.name := by
      simp [Function.comp]
    rw [hnames, List.nodup_cons]
    constructor
    · intro hkmem
      rcases List.mem_map.mp hkmem with ⟨p, hp, hpk⟩
      have hwp := hall p hp
      rw [wfParam] at hwp
      simp only [Bool.and_eq_true, Bool.not_eq_true'] at hwp
      rw [hpk] at hwp
      rw [hsigkey] at hwp
      cases hwp.1.1
    · rw [← distinctKeys_iff]
      have : func.params.map Param.name =
          (func.params.map (fun p => (p.name, p.ty, p.dflt))).map Prod.fst := by
        simp [Function.comp]
      rw [this] at hdk ⊢
      exact hdk
  · show (wfSchema (Schema.base Ty.tStr) &&
      wfDefault key (Schema.base Ty.tStr) none &&
      wfFields (func.params.map (fun p => (p.name, p.ty, p.dflt)))) = true
    rw [Bool.and_eq_true]
    exact ⟨by rfl, wfFields_of_params (fun p hp => hall p hp)⟩

/-! Keys added by filling are non-sigil, so promise detection sees the same
sigil keys before and after a fill. -/

theorem forall₂_dlookup_some_key {R : String → Node → Node → Prop}
    {l1 l2 : List (String × Node)}
    (h : List.Forall₂ (fun p q => p.1 = q.1 ∧ R p.1 p.2 q.2) l1 l2)
    {k : String} {a : Node} (ha : dlookup l1 k = some a) :
    ∃ b, dlookup l2 k = some b ∧ R k a b := by
  induction h with
  | nil => simp at ha
  | cons hpq hrest ih =>
      rename_i p q ps qs
      rcases hpq with ⟨hk, hR⟩
      by_cases hpk : p.1 = k
      · have hq : q.1 = k := hk ▸ hpk
        obtain ⟨p1, p2⟩ := p
        obtain ⟨q1, q2⟩ := q
        simp only at hpk hq hR
        subst hpk hq
        simp only [dlookup_cons, if_pos rfl] at ha ⊢
        cases ha
        exact ⟨q2, rfl, hR⟩
      · have hq : ¬ q.1 = k := hk ▸ hpk
        obtain ⟨p1, p2⟩ := p
        obtain ⟨q1, q2⟩ := q
        simp only at hpk hq
        simp only [dlookup_cons, if_neg hpk, if_neg hq] at ha ⊢
        exact ih ha

theorem dictUpdate_mem_keys {v p : List (String × Node)} {kv : String × Node}
    (h : kv ∈ dictUpdate v p) :
    kv.1 ∈ v.map Prod.fst ∨ kv.1 ∈ p.map Prod.fst := by
  unfold dictUpdate at h
  rcases List.mem_append.mp h with hm | hm
  · rcases List.mem_map.mp hm with ⟨kv0, hkv0, heq⟩
    rw [← heq]
    exact Or.inl (List.mem_map.mpr ⟨kv0, hkv0, rfl⟩)
  · exact Or.inr (List.mem_map.mpr ⟨kv, List.mem_of_mem_filter hm, rfl⟩)

theorem fav_filled_sigilKeys {reg : Registry} {es : List (String × Node)}
    {fields : List (String × Schema × Option Node)}
    {fv : List (String × Node) × List (String × Node)}
    (hnd : (fields.map Prod.fst).Nodup) (hwff : wfFields fields = true)
    (h : fill_and_validate reg es (.model fields) = .ok fv) :
    sigilKeys fv.1 = sigilKeys es := by
  rcases fav_ok_facts hnd h with ⟨hkeys, _, hreq⟩
  have hnil : ((fields.map Prod.fst).filter
      (fun n => !containsKey es n)).filter hasSigil = [] := by
    rw [List.filter_eq_nil_iff]
    intro n hn
    have hn2 : n ∈ (fields.map Prod.fst) := List.mem_of_mem_filter hn
    have hnc : (!containsKey es n) = true := (List.mem_filter.mp hn).2
    rcases List.mem_map.mp hn2 with ⟨f, hf, hkeq⟩
    obtain ⟨name, s, dopt⟩ := f
    simp only at hkeq
    subst hkeq
    cases dopt with
    | none =>
        have hx := hreq name s hf
        rw [hx] at hnc
        have hz : false = true := hnc
        cases hz
    | some d =>
        rcases wfFields_mem hwff hf with ⟨_, hd⟩
        rcases hd d rfl with ⟨hsg, _, _⟩
        simp [hsg]
  simp only [sigilKeys, hkeys, List.filter_append, hnil, List.append_nil]

/-! The assembly step of the idempotence argument: if the loop reproduces
the loop output of the first pass, the whole pass reproduces the filled
tree (the appended defaults are scalars the loop passes through, and the
second parse succeeds on already-validated values). -/

theorem fav_idem_of_loop {reg : Registry} {config : List (String × Node)}
    {schema : Schema} {fv : List (String × Node) × List (String × Node)}
    (hs : wfSchema schema = true)
    (h : fill_and_validate reg config schema = .ok fv)
    (hloop : ∀ fvpre, favEntries reg config schema = .ok fvpre →
       ∃ v2, favEntries reg fvpre.1 schema = .ok (fvpre.1, v2) ∧
         List.Forall₂ (fun p q => p.1 = q.1 ∧ VCone schema p.1 p.2 q.2)
           fvpre.2 v2) :
    ∃ v2, fill_and_validate reg fv.1 schema = .ok (fv.1, v2) := by
  rcases fav_inversion h with ⟨fields, fvpre, parsed, hfeq, hfe, hp, hv2, hv1⟩
  subst hfeq
  rcases wfSchema_model_inv hs with ⟨hndb, hwff⟩
  have hnd : (fields.map Prod.fst).Nodup := distinctKeys_iff.mp hndb
  rcases favEntries_basic hfe with ⟨hk1, hk2, hscal⟩
  rcases parse_obj_ok_inv hp with ⟨hextra, hpf⟩
  rcases parseFields_ok_facts hpf with ⟨hpk, hff⟩
  have hndp : (parsed.map Prod.fst).Nodup := by
    rw [hpk]; exact hnd
  rcases hloop fvpre hfe with ⟨v2loop, hloop2, hvc⟩
  have hkv2 : v2loop.map Prod.fst = fvpre.2.map Prod.fst :=
    forall₂_keys_eq (fun a b hab => hab.1) hvc
  have hfv1 : fv.1 = fvpre.1 ++
      parsed.filter (fun kv => !containsKey fvpre.2 kv.1) := by
    rw [hv1, filled_shape (hk1.trans hk2.symm)]
  have hAdef : ∀ kv ∈ parsed.filter (fun kv => !containsKey fvpre.2 kv.1),
      ∃ fty d, (kv.1, fty, some d) ∈ fields ∧ kv.2 = d := by
    intro kv hkv
    have hkvp : kv ∈ parsed := List.mem_of_mem_filter hkv
    have hkvnc : (!containsKey fvpre.2 kv.1) = true := (List.mem_filter.mp hkv).2
    rcases forall₂_mem_right hff hkvp with ⟨f, hfmem, hk1f, horigin⟩
    obtain ⟨name, fty, dopt⟩ := f
    obtain ⟨kk, kvv⟩ := kv
    simp only at hk1f horigin hkvnc ⊢
    subst hk1f
    rcases horigin with ⟨v, w, hvv, _, _⟩ | ⟨hnone, hdef⟩
    · rw [containsKey_eq_isSome, hvv] at hkvnc
      have hz : false = true := hkvnc
      cases hz
    · cases dopt with
      | none => cases hdef
      | some d =>
          rw [Option.some_inj] at hdef
          exact ⟨fty, d, hfmem, hdef.symm⟩
  have hAscal : ∀ kv ∈ parsed.filter (fun kv => !containsKey fvpre.2 kv.1),
      isMapNode kv.2 = false := by
    intro kv hkv
    rcases hAdef kv hkv with ⟨fty, d, hfm, hkd⟩
    rcases wfFields_mem hwff hfm with ⟨_, hd⟩
    rw [hkd]
    exact (hd d rfl).2.1
  have hloopF : favEntries reg
      (fvpre.1 ++ parsed.filter (fun kv => !containsKey fvpre.2 kv.1))
      (Schema.model fields) = .ok
      (fvpre.1 ++ parsed.filter (fun kv => !containsKey fvpre.2 kv.1),
       v2loop ++ parsed.filter (fun kv => !containsKey fvpre.2 kv.1)) :=
    favEntries_append hloop2 (favEntries_id_of_scalars hAscal)
  have hmiss : ∀ name fty dflt, (name, fty, dflt) ∈ fields →
      dlookup fvpre.2 name = none → ∃ d, dflt = some d ∧
      dlookup (parsed.filter (fun kv => !containsKey fvpre.2 kv.1)) name =
        some d := by
    intro name fty dflt hmem hnone
    rcases forall₂_mem_left hff hmem with ⟨p, hpmem, hk1f, horigin⟩
    obtain ⟨pk, pv⟩ := p
    simp only at hk1f horigin
    subst hk1f
    rcases horigin with ⟨v, w, hvv, _, _⟩ | ⟨_, hdef⟩
    · rw [hnone] at hvv; cases hvv
    · have hdl : dlookup parsed name = some pv :=
        mem_dlookup_of_nodup hndp hpmem
      have hq : (!containsKey fvpre.2 name) = true := by
        rw [containsKey_eq_isSome, hnone]; rfl
      refine ⟨pv, hdef, ?_⟩
      rw [dlookup_filter_key (l := parsed)
        (q := fun n => !containsKey fvpre.2 n) hq]
      exact hdl
  have hcond : ∀ name fty dflt, (name, fty, dflt) ∈ fields →
      (∃ v w, dlookup (v2loop ++
          parsed.filter (fun kv => !containsKey fvpre.2 kv.1)) name = some v ∧
        validateValue fty v = .ok w) ∨
      (dlookup (v2loop ++
          parsed.filter (fun kv => !containsKey fvpre.2 kv.1)) name = none ∧
        ∃ d, dflt = some d) := by
    intro name fty dflt hmem
    left
    cases hvp : dlookup fvpre.2 name with
    | some v1 =>
        rcases forall₂_dlookup_some_key hvc hvp with ⟨v2, hv2l, hVC⟩
        have hl2 : dlookup (v2loop ++
            parsed.filter (fun kv => !containsKey fvpre.2 kv.1)) name =
            some v2 := by
          rw [dlookup_append, hv2l]; rfl
        rcases forall₂_mem_left hff hmem with ⟨p, hpmem, hk1f, horigin⟩
        obtain ⟨pk, pv⟩ := p
        simp only at hk1f horigin
        subst hk1f
        rcases horigin with ⟨v, w, hvv, hval1, _⟩ | ⟨hnone, _⟩
        · rw [hvp] at hvv
          rw [Option.some_inj] at hvv
          subst hvv
          unfold VCone at hVC
          rcases hVC with rfl | ⟨fields2, subfields, dopt2, v2post, p2,
            hfeq2, hfl, rfl, hpo⟩
          · exact ⟨_, w, hl2, hval1⟩
          · have hfx := Schema.model.inj hfeq2
            subst hfx
            have hflf : dlookup fields name = some (fty, dflt) :=
              mem_dlookup_of_nodup hnd hmem
            rw [hflf] at hfl
            rw [Option.some_inj] at hfl
            have hft : fty = Schema.model subfields := congrArg Prod.fst hfl
            rw [hft]
            exact ⟨Node.map v2post, Node.map p2, hl2,
              validateValue_model_ok hpo⟩
        · rw [hvp] at hnone; cases hnone
    | none =>
        rcases hmiss name fty dflt hmem hvp with ⟨d, hdeq, hdl⟩
        have hnone2 : dlookup v2loop name = none := by
          apply dlookup_eq_none_of_not_containsKey
          rw [containsKey_congr hkv2 name, containsKey_eq_isSome, hvp]
          rfl
        have hl2 : dlookup (v2loop ++
            parsed.filter (fun kv => !containsKey fvpre.2 kv.1)) name =
            some d := by
          rw [dlookup_append, hnone2, hdl]
          rfl
        subst hdeq
        rcases wfFields_mem hwff hmem with ⟨_, hd⟩
        rcases hd d rfl with ⟨_, _, hok⟩
        revert hok
        cases hvd : validateValue fty d with
        | error e =>
            intro hok
            have hz : false = true := hok
            cases hz
        | ok w => intro _; exact ⟨d, w, hl2, hvd⟩
  have hkeys2 : ∀ kv ∈ (v2loop ++
      parsed.filter (fun kv => !containsKey fvpre.2 kv.1)),
      containsKey fields kv.1 = true := by
    intro kv hkv
    rcases List.mem_append.mp hkv with hm | hm
    · have hx : kv.1 ∈ fvpre.2.map Prod.fst := by
        rw [← hkv2]
        exact List.mem_map.mpr ⟨kv, hm, rfl⟩
      rcases List.mem_map.mp hx with ⟨kv0, hkv0, hkeq⟩
      have hy := hextra kv0 hkv0
      rw [← hkeq]
      exact hy
    · have hmp : kv ∈ parsed := List.mem_of_mem_filter hm
      apply containsKey_of_mem_keys
      rw [← hpk]
      exact List.mem_map.mpr ⟨kv, hmp, rfl⟩
  rcases parse_obj_ok_of hkeys2 hcond with ⟨p2, hp2⟩
  have hallfields : ∀ name fty dflt, (name, fty, dflt) ∈ fields →
      containsKey (fvpre.1 ++
        parsed.filter (fun kv => !containsKey fvpre.2 kv.1)) name = true := by
    intro name fty dflt hf
    rw [containsKey_eq_isSome, dlookup_append]
    cases hvp : dlookup fvpre.2 name with
    | some v1 =>
        cases hl1 : dlookup fvpre.1 name with
        | none =>
            have hc1 : containsKey fvpre.1 name = false := by
              rw [containsKey_eq_isSome, hl1]; rfl
            rw [containsKey_congr (hk1.trans hk2.symm) name,
              containsKey_eq_isSome, hvp] at hc1
            cases hc1
        | some v0 => rfl
    | none =>
        rcases hmiss name fty dflt hf hvp with ⟨d, _, hdl⟩
        have hl1 : dlookup fvpre.1 name = none := by
          apply dlookup_eq_none_of_not_containsKey
          rw [containsKey_congr (hk1.trans hk2.symm) name,
            containsKey_eq_isSome, hvp]
          rfl
        rw [hl1, hdl]
        rfl
  have hfilter : (dictUpdate (v2loop ++
      parsed.filter (fun kv => !containsKey fvpre.2 kv.1)) p2).filter
      (fun kv => !containsKey (fvpre.1 ++
        parsed.filter (fun kv => !containsKey fvpre.2 kv.1)) kv.1) = [] := by
    apply filter_contained_nil
    intro kv hkv
    rcases dictUpdate_mem_keys hkv with hm | hm
    · rw [List.map_append] at hm
      rcases List.mem_append.mp hm with hm2 | hm2
      · apply containsKey_of_mem_keys
        rw [List.map_append]
        apply List.mem_append_left
        rw [hk1, ← hk2, ← hkv2]
        exact hm2
      · apply containsKey_of_mem_keys
        rw [List.map_append]
        exact List.mem_append_right _ hm2
    · rcases parse_obj_ok_inv hp2 with ⟨_, hpf2⟩
      rcases parseFields_ok_facts hpf2 with ⟨hpk2, _⟩
      rw [hpk2] at hm
      rcases List.mem_map.mp hm with ⟨f, hf, hkeq⟩
      obtain ⟨name, fty, dflt⟩ := f
      rw [← hkeq]
      exact hallfields name fty dflt hf
  refine ⟨dictUpdate (v2loop ++
    parsed.filter (fun kv => !containsKey fvpre.2 kv.1)) p2, ?_⟩
  rw [hfv1, fill_and_validate, hloopF, tbind_ok]
  have hpost : favPost (Schema.model fields)
      (fvpre.1 ++ parsed.filter (fun kv => !containsKey fvpre.2 kv.1),
       v2loop ++ parsed.filter (fun kv => !containsKey fvpre.2 kv.1)) =
      parse_obj fields (v2loop ++
        parsed.filter (fun kv => !containsKey fvpre.2 kv.1)) >>=
      fun parsed2 => pure ((fvpre.1 ++
          parsed.filter (fun kv => !containsKey fvpre.2 kv.1)) ++
        (dictUpdate (v2loop ++
          parsed.filter (fun kv => !containsKey fvpre.2 kv.1)) parsed2).filter
          (fun kv => !containsKey (fvpre.1 ++
            parsed.filter (fun kv => !containsKey fvpre.2 kv.1)) kv.1),
        dictUpdate (v2loop ++
          parsed.filter (fun kv => !containsKey fvpre.2 kv.1)) parsed2) := rfl
  rw [hpost, hp2, tbind_ok, hfilter, List.append_nil, tpure_eq]

/-! Idempotence of the fill-and-validate loop on its own output, on a
well-formed registry and schema. -/

mutual

theorem favOne_idem (reg : Registry) (value : Node) (schema : Schema)
    (key : String) (fx : Node × Node)
    (hreg : wfReg reg = true) (hs : wfSchema schema = true)
    (h : favOne reg value schema key = .ok fx) :
    ∃ vx2, favOne reg fx.1 schema key = .ok (fx.1, vx2) ∧
      VCone schema key fx.2 vx2 :=
  match value with
  | .str s => by
      have hx : (Except.ok (Node.str s, Node.str s) :
        Except Err (Node × Node)) = .ok fx := h
      cases hx
      exact ⟨Node.str s, rfl, Or.inl rfl⟩
  | .int i => by
      have hx : (Except.ok (Node.int i, Node.int i) :
        Except Err (Node × Node)) = .ok fx := h
      cases hx
      exact ⟨Node.int i, rfl, Or.inl rfl⟩
  | .bool b => by
      have hx : (Except.ok (Node.bool b, Node.bool b) :
        Except Err (Node × Node)) = .ok fx := h
      cases hx
      exact ⟨Node.bool b, rfl, Or.inl rfl⟩
  | .placeholder c => by
      have hx : (Except.ok (Node.placeholder c, Node.placeholder c) :
        Except Err (Node × Node)) = .ok fx := h
      cases hx
      exact ⟨Node.placeholder c, rfl, Or.inl rfl⟩
  | .obj c d => by
      have hx : (Except.ok (Node.obj c d, Node.obj c d) :
        Except Err (Node × Node)) = .ok fx := h
      cases hx
      exact ⟨Node.obj c d, rfl, Or.inl rfl⟩
  | .map es => by
      by_cases hsig : (sigilKeys es).length = 1
      · rcases favOne_promise_inv hsig h with ⟨psch, f, ty, hmps, hfav, hret, rfl⟩
        have hwfps : wfSchema psch = true := wf_promise_schema hreg hmps
        rcases fav_inversion hfav with ⟨psfields, _, _, hpseq, _, _, _, _⟩
        subst hpseq
        rcases wfSchema_model_inv hwfps with ⟨hndb2, hwff2⟩
        have hnd2 : (psfields.map Prod.fst).Nodup := distinctKeys_iff.mp hndb2
        have hsig2 : sigilKeys f.1 = sigilKeys es :=
          fav_filled_sigilKeys hnd2 hwff2 hfav
        have hcex : ∃ c, get_constructor reg es = .ok c := by
          have hmps2 := hmps
          simp only [make_promise_schema] at hmps2
          rcases bind_ok_inv hmps2 with ⟨c, hc, _⟩
          exact ⟨c, hc⟩
        rcases hcex with ⟨c, hc⟩
        rcases get_constructor_ok_inv hc with ⟨k3, fname, hsk, hdl, _⟩
        have hval : ∀ k2, sigilKeys es = [k2] →
            dlookup f.1 k2 = dlookup es k2 := by
          intro k2 hk2
          have hk23 : k2 = k3 := by
            rw [hk2] at hsk
            injection hsk
          subst hk23
          rw [hdl]
          exact fav_preserves_scalars hfav hdl rfl
        rcases fav_idem_of_loop hwfps hfav
            (fun fvpre hfe =>
              favE_idem reg es (Schema.model psfields) fvpre hreg hwfps hfe)
          with ⟨v2n, hidem2⟩
        refine ⟨Node.placeholder ty, ?_, Or.inl rfl⟩
        show favOne reg (Node.map f.1) schema key =
          Except.ok (Node.map f.1, Node.placeholder ty)
        simp only [favOne]
        rw [if_pos (by rw [hsig2]; exact hsig)]
        rw [make_promise_schema_congr hsig2 hval, hmps, tbind_ok]
        have h5 : (favEntries reg f.1 (Schema.model psfields) >>=
            favPost (Schema.model psfields)) = Except.ok (f.1, v2n) := hidem2
        rw [h5, tbind_ok, get_return_type_congr hsig2 hval, hret, tbind_ok,
          tpure_eq]
      · rcases favOne_map_inv hsig h with ⟨fields, fd, fvv, hscheq, hfd, hfav, rfl⟩
        subst hscheq
        rcases wfSchema_model_inv hs with ⟨hndb, hwff⟩
        have hwfsub : wfSchema fd.1 = true :=
          (wfFields_mem hwff (dlookup_mem hfd)).1
        rcases fav_inversion hfav with ⟨subfields, _, _, hsubeq, _, _, _, _⟩
        have hfav2 : fill_and_validate reg es (Schema.model subfields) =
            .ok fvv := hsubeq ▸ hfav
        have hwfsub2 : wfSchema (Schema.model subfields) = true :=
          hsubeq ▸ hwfsub
        rcases wfSchema_model_inv hwfsub2 with ⟨hndb3, hwffsub⟩
        have hndsub : (subfields.map Prod.fst).Nodup :=
          distinctKeys_iff.mp hndb3
        have hsig2 : sigilKeys fvv.1 = sigilKeys es :=
          fav_filled_sigilKeys hndsub hwffsub hfav2
        rcases fav_idem_of_loop hwfsub2 hfav2
            (fun fvpre hfe =>
              favE_idem reg es (Schema.model subfields) fvpre hreg hwfsub2 hfe)
          with ⟨v2n, hidem2⟩
        rcases fav_output_revalidates hwfsub2 hidem2 with ⟨p2, hp2⟩
        have hfd2 : fd = (Schema.model subfields, fd.2) := Prod.ext hsubeq rfl
        refine ⟨Node.map v2n, ?_,
          Or.inr ⟨fields, subfields, fd.2, v2n, p2, rfl,
            hfd.trans (congrArg some hfd2), rfl, hp2⟩⟩
        show favOne reg (Node.map fvv.1) (Schema.model fields) key =
          Except.ok (Node.map fvv.1, Node.map v2n)
        simp only [favOne]
        rw [if_neg (by rw [hsig2]; exact hsig)]
        show (match dlookup fields key with
          | some fd2 =>
              (favEntries reg fvv.1 fd2.1 >>= favPost fd2.1) >>= fun fv2 =>
              pure (Node.map fv2.1, Node.map fv2.2)
          | none => (Except.error (Err.keyErr key) :
              Except Err (Node × Node))) =
          Except.ok (Node.map fvv.1, Node.map v2n)
        rw [hfd]
        show ((favEntries reg fvv.1 fd.1 >>= favPost fd.1) >>= fun fv2 =>
          pure (Node.map fv2.1, Node.map fv2.2)) =
          Except.ok (Node.map fvv.1, Node.map v2n)
        have h5 : (favEntries reg fvv.1 fd.1 >>= favPost fd.1) =
            Except.ok (fvv.1, v2n) := by
          rw [hsubeq]
          exact hidem2
        rw [h5, tbind_ok, tpure_eq]

theorem favE_idem (reg : Registry) (config : List (String × Node))
    (schema : Schema) (fvpre : List (String × Node) × List (String × Node))
    (hreg : wfReg reg = true) (hs : wfSchema schema = true)
    (h : favEntries reg config schema = .ok fvpre) :
    ∃ v2, favEntries reg fvpre.1 schema = .ok (fvpre.1, v2) ∧
      List.Forall₂ (fun p q => p.1 = q.1 ∧ VCone schema p.1 p.2 q.2)
        fvpre.2 v2 :=
  match config with
  | [] => by
      rw [favEntries_nil] at h
      cases h
      exact ⟨[], favEntries_nil reg schema, List.Forall₂.nil⟩
  | (key, value) :: rest => by
      rcases favEntries_cons_inv h with ⟨fx, frest, h1, h2, rfl⟩
      rcases favOne_idem reg value schema key fx hreg hs h1 with
        ⟨vx2, h1b, hvc1⟩
      rcases favE_idem reg rest schema frest hreg hs h2 with
        ⟨v2r, h2b, hvcr⟩
      refine ⟨(key, vx2) :: v2r, ?_, List.Forall₂.cons ⟨rfl, hvc1⟩ hvcr⟩
      simp only [favEntries, h1b, tbind_ok, h2b, tbind_ok, tpure_eq]

end

/-- Idempotence of `fill_and_validate` on a well-formed registry and
schema: a second pass over the filled output succeeds and reproduces the
filled tree. -/
theorem fav_idem {reg : Registry} {config : List (String × Node)}
    {schema : Schema} {fv : List (String × Node) × List (String × Node)}
    (hreg : wfReg reg = true) (hs : wfSchema schema = true)
    (h : fill_and_validate reg config schema = .ok fv) :
    ∃ v2, fill_and_validate reg fv.1 schema = .ok (fv.1, v2) :=
  fav_idem_of_loop hs h
    (fun fvpre hfe => favE_idem reg config schema fvpre hreg hs hfe)


/-- C8: the claim states fill_and_validate is idempotent on every input on
which it succeeds; a mapping-valued default refutes this. pydantic does not
validate declared defaults, so the first pass (empty config against a
schema whose field defaults to a dict) succeeds and writes the dict into
`filled`; the second pass recurses into that dict value and, the field's
annotation being no model, dies looking up sub-fields (AttributeError). -/
theorem C8_counterexample :
    registry.fill_and_validate [] [] mapDefaultSchema =
      .ok ([("x", .map [("a", .int 1)])], [("x", .map [("a", .int 1)])]) ∧
    registry.fill_and_validate [] [("x", .map [("a", .int 1)])]
      mapDefaultSchema = .error .attrErr :=
  ⟨rfl, rfl⟩

/-- C8 (amended): on a well-formed registry and schema — distinct field
names, declared defaults that are non-dict values accepted by their own
annotations and sitting on non-sigil field names, as every schema pydantic
derives from a Python signature is — `fill_and_validate` is stable under
repetition: whenever it succeeds, a second pass on the filled output
succeeds and returns the identical filled tree. -/
theorem C8_fill_and_validate_idempotent_wf (reg : Registry)
    (config : List (String × Node)) (schema : Schema)
    (fv : List (String × Node) × List (String × Node))
    (hreg : wfReg reg = true) (hs : wfSchema schema = true)
    (h : registry.fill_and_validate reg config schema = .ok fv) :
    ∃ v2, registry.fill_and_validate reg fv.1 schema = .ok (fv.1, v2) :=
  fav_idem hreg hs h

/-- C8 witness: a concrete run — a promise supplying only its sigil key
under a schema with a scalar default — on which the second pass reproduces
the filled tree of the first. -/
theorem C8_witness :
    wfReg regDemo = true ∧
    wfSchema (Schema.model [("model", Schema.base .tAny, none),
      ("n", Schema.base .tInt, some (.int 3))]) = true ∧
    ∃ v2, registry.fill_and_validate regDemo
      [("model", .map [("@layers", .str "Softmax.v0"), ("nO", .int 2)]),
       ("n", .int 3)]
      (Schema.model [("model", Schema.base .tAny, none),
        ("n", Schema.base .tInt, some (.int 3))]) =
      .ok ([("model", .map [("@layers", .str "Softmax.v0"), ("nO", .int 2)]),
            ("n", .int 3)], v2) :=
  ⟨by decide, by decide,
   C8_fill_and_validate_idempotent_wf regDemo
     [("model", .map [("@layers", .str "Softmax.v0")])]
     (Schema.model [("model", Schema.base .tAny, none),
       ("n", Schema.base .tInt, some (.int 3))])
     ([("model", .map [("@layers", .str "Softmax.v0"), ("nO", .int 2)]),
       ("n", .int 3)],
      [("model", .placeholder "Model"), ("n", .int 3)])
     (by decide) (by decide) rfl⟩

end Thinc
